import Mathlib

/-
Verification of the IMF immutable-container engine.

The Go sources (pkg/manifest/manifest.go, pkg/container/container.go and the
crypto package) are shallowly embedded below.  Byte strings are `List Nat`
(one Nat per byte).  Cryptographic and encoding primitives that belong to the
Go standard library (SHA-256, HMAC, AES-GCM, Ed25519 curve arithmetic,
base64, RFC 3339 time rendering) are not code of this repository; they are
modelled as explicit function parameters collected in the `Prims` structure,
and the theorems assume only the contracts that the corresponding standards
guarantee (for example that AES-GCM decryption inverts encryption under the
same key and nonce).  Everything written in this repository itself - the
manifest model, its JSON field layout, PBKDF2 (hand rolled in the repo),
and the whole container engine - is translated from the source.
-/

namespace IMF

/-- Byte strings: one natural number per byte. -/
abbrev Bytes := List Nat

/-- Lookup in an association list with Go-map semantics: repeated assignment
to the same key overwrites, so the last binding wins. -/
def lookupLast (l : List (String × Bytes)) (k : String) : Option Bytes :=
  l.foldl (fun acc p => if p.1 = k then some p.2 else acc) none

theorem lookupFold_some_ne_none (l : List (String × Bytes)) (k : String)
    (v : Bytes) :
    l.foldl (fun acc p => if p.1 = k then some p.2 else acc) (some v) ≠ none := by
  induction l generalizing v with
  | nil => simp
  | cons p t ih =>
    simp only [List.foldl_cons]
    by_cases hk : p.1 = k
    · rw [if_pos hk]; exact ih p.2
    · rw [if_neg hk]; exact ih v

theorem lookupFold_none (l : List (String × Bytes)) (k : String) :
    lookupLast l k = none → ∀ acc : Option Bytes,
      l.foldl (fun acc p => if p.1 = k then some p.2 else acc) acc = acc := by
  unfold lookupLast
  induction l with
  | nil => intro _ acc; rfl
  | cons p t ih =>
    intro h acc
    simp only [List.foldl_cons] at h ⊢
    by_cases hk : p.1 = k
    · rw [if_pos hk] at h
      exact absurd h (lookupFold_some_ne_none t k p.2)
    · rw [if_neg hk] at h ⊢
      exact ih h acc

theorem lookupFold_some (l : List (String × Bytes)) (k : String) (b : Bytes) :
    lookupLast l k = some b → ∀ acc : Option Bytes,
      l.foldl (fun acc p => if p.1 = k then some p.2 else acc) acc = some b := by
  unfold lookupLast
  induction l with
  | nil => intro h; simp at h
  | cons p t ih =>
    intro h acc
    simp only [List.foldl_cons] at h ⊢
    by_cases hk : p.1 = k
    · rw [if_pos hk] at h ⊢
      exact h
    · rw [if_neg hk] at h ⊢
      exact ih h acc

theorem lookupLast_append (l₁ l₂ : List (String × Bytes)) (k : String) :
    lookupLast (l₁ ++ l₂) k =
      (lookupLast l₂ k).rec (lookupLast l₁ k) (fun b => some b) := by
  cases h : lookupLast l₂ k with
  | none =>
    show lookupLast (l₁ ++ l₂) k = lookupLast l₁ k
    unfold lookupLast
    rw [List.foldl_append]
    exact lookupFold_none l₂ k h _
  | some b =>
    show lookupLast (l₁ ++ l₂) k = some b
    unfold lookupLast
    rw [List.foldl_append]
    exact lookupFold_some l₂ k b h _

theorem lookupLast_append_ne (l : List (String × Bytes)) (k k' : String)
    (v : Bytes) (h : k' ≠ k) :
    lookupLast (l ++ [(k', v)]) k = lookupLast l k := by
  rw [lookupLast_append]
  simp [lookupLast, h]

theorem lookupLast_append_self (l : List (String × Bytes)) (k : String)
    (v : Bytes) : lookupLast (l ++ [(k, v)]) k = some v := by
  rw [lookupLast_append]
  simp [lookupLast]

theorem lookupLast_isSome_mem (l : List (String × Bytes)) (k : String)
    (h : (lookupLast l k).isSome) : k ∈ l.map Prod.fst := by
  induction l using List.reverseRecOn with
  | nil => simp [lookupLast] at h
  | append_singleton t p ih =>
    by_cases hk : p.1 = k
    · simp [hk]
    · rw [lookupLast_append_ne t k p.1 p.2 hk] at h
      simp [ih h]

theorem lookupLast_cons (p : String × Bytes) (l : List (String × Bytes))
    (k : String) :
    lookupLast (p :: l) k =
      (lookupLast l k).rec (if p.1 = k then some p.2 else none)
        (fun b => some b) := by
  have h : p :: l = [p] ++ l := rfl
  rw [h, lookupLast_append]
  by_cases hk : p.1 = k <;> cases hl : lookupLast l k <;>
    simp [lookupLast, hk]

/-- Lower-case hex digit, as produced by Go `encoding/hex`. -/
def hexChar (n : Nat) : Char :=
  if n < 10 then Char.ofNat (48 + n) else Char.ofNat (87 + n)

/-- Go `hex.EncodeToString`: two lower-case hex digits per byte. -/
def hexEncode (bs : Bytes) : String :=
  String.mk (bs.foldr (fun b acc => hexChar (b / 16 % 16) :: hexChar (b % 16) :: acc) [])

theorem hexEncode_nil : hexEncode [] = "" := rfl

theorem hexEncode_ne_empty (bs : Bytes) (h : bs ≠ []) : hexEncode bs ≠ "" := by
  cases bs with
  | nil => exact absurd rfl h
  | cons b t =>
    intro hc
    have : (hexEncode (b :: t)).data = ("" : String).data := by rw [hc]
    simp [hexEncode] at this

/-- Little-endian decimal digits of `n`, with explicit fuel (`fuel ≥ n`
suffices).  Mirrors the digit extraction performed by Go `fmt.Sprintf("%d", n)`. -/
def decDigits : Nat → Nat → List Nat
  | 0, _ => []
  | _ + 1, 0 => []
  | fuel + 1, n => (n % 10) :: decDigits fuel (n / 10)

theorem decDigits_zero (fuel : Nat) : decDigits fuel 0 = [] := by
  cases fuel <;> rfl

theorem decDigits_succ (fuel n : Nat) (h : n ≠ 0) :
    decDigits (fuel + 1) n = (n % 10) :: decDigits fuel (n / 10) := by
  cases n with
  | zero => exact absurd rfl h
  | succ m => rfl

/-- Value of a little-endian digit list. -/
def ofDigitsLE : List Nat → Nat
  | [] => 0
  | d :: t => d + 10 * ofDigitsLE t

theorem ofDigitsLE_decDigits (fuel n : Nat) (h : n ≤ fuel) :
    ofDigitsLE (decDigits fuel n) = n := by
  induction fuel generalizing n with
  | zero =>
    interval_cases n
    simp [decDigits, ofDigitsLE]
  | succ fuel ih =>
    by_cases hn : n = 0
    · subst hn; simp [decDigits_zero, ofDigitsLE]
    · rw [decDigits_succ fuel n hn]
      have hdiv : n / 10 ≤ fuel := by
        have h1 : n / 10 < n := Nat.div_lt_self (Nat.pos_of_ne_zero hn) (by omega)
        omega
      simp [ofDigitsLE, ih (n / 10) hdiv]
      omega

theorem decDigits_lt_ten (fuel n : Nat) : ∀ d ∈ decDigits fuel n, d < 10 := by
  induction fuel generalizing n with
  | zero => simp [decDigits]
  | succ fuel ih =>
    by_cases hn : n = 0
    · subst hn; simp [decDigits_zero]
    · rw [decDigits_succ fuel n hn]
      intro d hd
      rcases List.mem_cons.mp hd with h | h
      · subst h; exact Nat.mod_lt _ (by omega)
      · exact ih (n / 10) d h

/-- Decimal digit character. -/
def digitChar (d : Nat) : Char := Char.ofNat (48 + d)

theorem digitChar_inj (d e : Nat) (hd : d < 10) (he : e < 10)
    (h : digitChar d = digitChar e) : d = e := by
  interval_cases d <;> interval_cases e <;> simp_all [digitChar]

/-- Go `fmt.Sprintf("%d", n)` for natural `n`: decimal rendering. -/
def decRepr (n : Nat) : String :=
  if n = 0 then "0" else String.mk (((decDigits n n).reverse).map digitChar)

theorem decDigits_inj (a b : Nat)
    (h : decDigits a a = decDigits b b) : a = b := by
  have ha := ofDigitsLE_decDigits a a (le_refl a)
  have hb := ofDigitsLE_decDigits b b (le_refl b)
  rw [← ha, ← hb, h]

theorem decRepr_eq_zero (b : Nat) (h : decRepr b = "0") : b = 0 := by
  by_contra hb
  rw [decRepr, if_neg hb] at h
  have hdata : ((decDigits b b).reverse).map digitChar = ['0'] := by
    have := congrArg String.data h
    simpa using this
  have hrev : (decDigits b b).reverse = [0] := by
    cases hr : (decDigits b b).reverse with
    | nil => rw [hr] at hdata; simp at hdata
    | cons d t =>
      rw [hr, List.map_cons] at hdata
      injection hdata with hd ht
      have ht0 : t = [] := by
        cases t with
        | nil => rfl
        | cons x xs => simp at ht
      subst ht0
      have hd10 : d < 10 := by
        apply decDigits_lt_ten b b
        have hmem : d ∈ (decDigits b b).reverse := by rw [hr]; simp
        simpa using hmem
      have hd0 : d = 0 := digitChar_inj d 0 hd10 (by omega) (by rw [hd]; rfl)
      rw [hd0]
  have hdd : decDigits b b = [0] := by
    have := congrArg List.reverse hrev
    simpa using this
  have hval := ofDigitsLE_decDigits b b (le_refl b)
  rw [hdd] at hval
  simp [ofDigitsLE] at hval
  omega

theorem decRepr_inj (a b : Nat) (h : decRepr a = decRepr b) : a = b := by
  by_cases hA : a = 0
  · subst hA
    have h0 : decRepr b = "0" := by rw [← h]; rfl
    exact (decRepr_eq_zero b h0).symm
  · by_cases hB : b = 0
    · subst hB
      have h0 : decRepr a = "0" := by rw [h]; rfl
      exact absurd (decRepr_eq_zero a h0) hA
    · rw [decRepr, if_neg hA, decRepr, if_neg hB] at h
      have hdata := congrArg String.data h
      simp at hdata
      have hmap : (decDigits a a).map digitChar = (decDigits b b).map digitChar := by
        have := congrArg List.reverse hdata
        simpa using this
      have hund : ∀ (n : Nat) (d : Nat), d ∈ decDigits n n →
          (digitChar d).toNat - 48 = d := by
        intro n d hd
        have h10 := decDigits_lt_ten n n d hd
        interval_cases d <;> rfl
      have key : ∀ (n : Nat),
          ((decDigits n n).map digitChar).map (fun c => c.toNat - 48) = decDigits n n := by
        intro n
        rw [List.map_map]
        have hcong : (decDigits n n).map (fun d => (digitChar d).toNat - 48) =
            (decDigits n n).map id :=
          List.map_congr_left (fun d hd => hund n d hd)
        simpa using hcong
      have hdig : decDigits a a = decDigits b b := by
        rw [← key a, hmap, key b]
      exact decDigits_inj a b hdig

/-- Auxiliary walk for `splitExt`: scans the reversed character list of the
file name looking for the last dot, mirroring Go `filepath.Ext` (which scans
backwards until a dot or a path separator). -/
def extSplitAux (s : String) : List Char → List Char → String × String
  | [], _ => (s, "")
  | c :: rest, acc =>
    if c = '.' then (String.mk rest.reverse, String.mk (c :: acc))
    else if c = '/' then (s, "")
    else extSplitAux s rest (c :: acc)

/-- Split a base name into stem and extension.  The second component is Go
`filepath.Ext(s)` and the first is `strings.TrimSuffix(s, ext)`: everything
from the last dot on (dot included) is the extension; no dot (or a path
separator first) means an empty extension. -/
def splitExt (s : String) : String × String := extSplitAux s s.data.reverse []

theorem extSplitAux_concat (s : String) :
    ∀ (rev acc : List Char), rev.reverse ++ acc = s.data →
      ((extSplitAux s rev acc).1).data ++ ((extSplitAux s rev acc).2).data = s.data := by
  intro rev
  induction rev with
  | nil =>
    intro acc _
    simp [extSplitAux]
  | cons c rest ih =>
    intro acc h
    unfold extSplitAux
    by_cases hdot : c = '.'
    · rw [if_pos hdot]
      simpa using h
    · rw [if_neg hdot]
      by_cases hsl : c = '/'
      · rw [if_pos hsl]; simp
      · rw [if_neg hsl]
        apply ih
        simpa using h

theorem splitExt_concat (s : String) :
    ((splitExt s).1).data ++ ((splitExt s).2).data = s.data := by
  apply extSplitAux_concat
  simp

/-- JSON values, with object fields kept in emission order (Go `encoding/json`
emits struct fields in declaration order). -/
inductive Json where
  | str (s : String)
  | num (n : Int)
  | arr (xs : List Json)
  | obj (fields : List (String × Json))

/-- One escaped character of a JSON string, as produced by Go `encoding/json`
with its default HTML escaping: quote, backslash, newline, carriage return and
tab get two-character escapes, other control characters and the HTML-relevant
characters get a `\u00xx` escape, everything else is emitted verbatim. -/
def escapeChar (c : Char) : List Char :=
  if c = '"' then ['\\', '"']
  else if c = '\\' then ['\\', '\\']
  else if c = '\n' then ['\\', 'n']
  else if c = '\r' then ['\\', 'r']
  else if c = '\t' then ['\\', 't']
  else if c.toNat < 32 ∨ c = '<' ∨ c = '>' ∨ c = '&' then
    ['\\', 'u', '0', '0', hexChar (c.toNat / 16 % 16), hexChar (c.toNat % 16)]
  else if c.toNat = 8232 ∨ c.toNat = 8233 then
    ['\\', 'u', '2', '0', '2', hexChar (c.toNat % 16)]
  else [c]

/-- A JSON string literal: the escaped characters wrapped in double quotes. -/
def quoteString (s : String) : String :=
  String.mk ('"' :: s.data.foldr (fun c acc => escapeChar c ++ acc) ['"'])

/-- Opening brace character, as a string. -/
def lbr : String := String.mk [Char.ofNat 123]

/-- Closing brace character, as a string. -/
def rbr : String := String.mk [Char.ofNat 125]

/-- Go `fmt`-style decimal rendering of an `Int`. -/
def intRepr (n : Int) : String :=
  if n < 0 then "-" ++ decRepr (-n).toNat else decRepr n.toNat

mutual

/-- Compact JSON rendering: Go `json.Marshal` (no whitespace at all). -/
def renderC : Json → String
  | .str s => quoteString s
  | .num n => intRepr n
  | .arr xs => "[" ++ renderCArr xs ++ "]"
  | .obj fs => lbr ++ renderCObj fs ++ rbr

/-- Compact rendering of array elements, comma separated. -/
def renderCArr : List Json → String
  | [] => ""
  | [x] => renderC x
  | x :: y :: xs => renderC x ++ "," ++ renderCArr (y :: xs)

/-- Compact rendering of object fields, comma separated. -/
def renderCObj : List (String × Json) → String
  | [] => ""
  | [f] => quoteString f.1 ++ ":" ++ renderC f.2
  | f :: g :: fs => quoteString f.1 ++ ":" ++ renderC f.2 ++ "," ++ renderCObj (g :: fs)

end

/-- `n` levels of two-space indentation: Go `json.MarshalIndent(v, "", "  ")`. -/
def indentOf : Nat → String
  | 0 => ""
  | n + 1 => "  " ++ indentOf n

mutual

/-- Indented JSON rendering at depth `d`, byte-for-byte the output of Go
`json.MarshalIndent(v, "", "  ")`: compound values open their bracket in
place, put every element on its own deeper-indented line, and close the
bracket on a fresh line at the current depth; empty compounds stay inline. -/
def renderI : Nat → Json → String
  | _, .str s => quoteString s
  | _, .num n => intRepr n
  | _, .arr [] => "[]"
  | d, .arr (x :: xs) =>
      "[\n" ++ renderIArr (d + 1) (x :: xs) ++ "\n" ++ indentOf d ++ "]"
  | _, .obj [] => lbr ++ rbr
  | d, .obj (f :: fs) =>
      lbr ++ "\n" ++ renderIObj (d + 1) (f :: fs) ++ "\n" ++ indentOf d ++ rbr

/-- Indented rendering of array elements. -/
def renderIArr : Nat → List Json → String
  | _, [] => ""
  | d, [x] => indentOf d ++ renderI d x
  | d, x :: y :: xs =>
      indentOf d ++ renderI d x ++ ",\n" ++ renderIArr d (y :: xs)

/-- Indented rendering of object fields (`"key": value`). -/
def renderIObj : Nat → List (String × Json) → String
  | _, [] => ""
  | d, [f] => indentOf d ++ quoteString f.1 ++ ": " ++ renderI d f.2
  | d, f :: g :: fs =>
      indentOf d ++ quoteString f.1 ++ ": " ++ renderI d f.2 ++ ",\n" ++
        renderIObj d (g :: fs)

end

/-! ## Manifest model (pkg/manifest/manifest.go)

Timestamps are modelled as `Int` UTC instants; the textual RFC 3339 rendering
performed by `time.Time.MarshalJSON` is a standard-library concern and enters
only the JSON layer, as an explicit rendering parameter `rfc`.  Optional
`*time.Time` fields are `Option Int` (`none` = nil pointer). -/

/-- `EncryptionInfo` of manifest.go: algorithm, KDF, base64 salt, iterations
(the `iterations` JSON tag carries `omitempty`). -/
structure EncryptionInfo where
  algorithm : String
  kdf : String
  salt : String
  iterations : Int
deriving DecidableEq

/-- `FileEntry` of manifest.go.  `encryptedSHA256` has `omitempty`; the empty
string is the Go zero value and is omitted from JSON. -/
structure FileEntry where
  path : String
  originalName : String
  originalSize : Int
  sha256 : String
  encryptedSHA256 : String
deriving DecidableEq

/-- `Manifest` of manifest.go, fields in Go declaration order.  String fields
with `omitempty` (`public_key`, `signature`) use `""` as the absent value,
exactly as the Go zero value. -/
structure Manifest where
  version : Int
  state : String
  createdAt : Int
  sealedAt : Option Int
  expiresAt : Option Int
  publicKey : String
  encryption : Option EncryptionInfo
  files : List FileEntry
  signature : String
deriving DecidableEq

/-- JSON object for a `FileEntry`, field order and `omitempty` behaviour as in
the Go struct tags. -/
def FileEntry.json (fe : FileEntry) : Json :=
  .obj ([("path", .str fe.path), ("original_name", .str fe.originalName),
         ("original_size", .num fe.originalSize), ("sha256", .str fe.sha256)] ++
        (if fe.encryptedSHA256 = "" then [] else
          [("encrypted_sha256", .str fe.encryptedSHA256)]))

/-- JSON object for `EncryptionInfo` (`iterations` has `omitempty`: the Go
zero value 0 is omitted). -/
def EncryptionInfo.json (e : EncryptionInfo) : Json :=
  .obj ([("algorithm", .str e.algorithm), ("kdf", .str e.kdf),
         ("salt", .str e.salt)] ++
        (if e.iterations = 0 then [] else [("iterations", .num e.iterations)]))

/-- The JSON fields of a `Manifest` in Go declaration order, honouring every
`omitempty` tag: `sealed_at`, `expires_at`, `public_key`, `encryption` and
`signature` disappear at their zero values.  `rfc` renders a timestamp the way
`time.Time.MarshalJSON` does. -/
def Manifest.jsonFields (rfc : Int → String) (m : Manifest) :
    List (String × Json) :=
  [("version", .num m.version), ("state", .str m.state),
   ("created_at", .str (rfc m.createdAt))] ++
  (match m.sealedAt with
   | some t => [("sealed_at", Json.str (rfc t))]
   | none => []) ++
  (match m.expiresAt with
   | some t => [("expires_at", Json.str (rfc t))]
   | none => []) ++
  (if m.publicKey = "" then [] else [("public_key", .str m.publicKey)]) ++
  (match m.encryption with
   | some e => [("encryption", e.json)]
   | none => []) ++
  [("files", .arr (m.files.map FileEntry.json))] ++
  (if m.signature = "" then [] else [("signature", .str m.signature)])

/-- `Manifest.SignableBytes`: the source makes a copy with `Signature = ""`
and returns `json.Marshal(cp)` - the compact encoder. -/
def Manifest.SignableBytes (rfc : Int → String) (m : Manifest) : String :=
  renderC (.obj (Manifest.jsonFields rfc { m with signature := "" }))

/-- `Manifest.Marshal`: `json.MarshalIndent(m, "", "  ")`, the two-space
indented canonical form stored as the `manifest.json` member. -/
def Manifest.Marshal (rfc : Int → String) (m : Manifest) : String :=
  renderI 0 (.obj (Manifest.jsonFields rfc m))

/-- The manifest fields with the `signature` key ALWAYS present, even when
empty.  This is not what the code does; it is the layout the specification
describes for the signable bytes ("serialized with signature set to the empty
string (not omitted)"), used to compare the spec against the code. -/
def Manifest.jsonFieldsSigPresent (rfc : Int → String) (m : Manifest) :
    List (String × Json) :=
  [("version", .num m.version), ("state", .str m.state),
   ("created_at", .str (rfc m.createdAt))] ++
  (match m.sealedAt with
   | some t => [("sealed_at", Json.str (rfc t))]
   | none => []) ++
  (match m.expiresAt with
   | some t => [("expires_at", Json.str (rfc t))]
   | none => []) ++
  (if m.publicKey = "" then [] else [("public_key", .str m.publicKey)]) ++
  (match m.encryption with
   | some e => [("encryption", e.json)]
   | none => []) ++
  [("files", .arr (m.files.map FileEntry.json))] ++
  [("signature", .str m.signature)]

/-- The signable bytes as the specification words them: the same two-space
indented canonical serialization used for the stored `manifest.json`, with
`signature` set to the empty string and still present in the output. -/
def Manifest.specSignableBytes (rfc : Int → String) (m : Manifest) : String :=
  renderI 0 (.obj (Manifest.jsonFieldsSigPresent rfc { m with signature := "" }))

/-- `manifest.New()`: fresh open manifest at creation instant `now`. -/
def Manifest.New (now : Int) : Manifest :=
  { version := 1, state := "open", createdAt := now, sealedAt := none,
    expiresAt := none, publicKey := "", encryption := none, files := [],
    signature := "" }

/-- `Manifest.IsSealed`. -/
def Manifest.IsSealed (m : Manifest) : Bool := m.state = "sealed"

/-- `Manifest.IsExpired` at current instant `now`: Go computes
`time.Now().UTC().After(*m.ExpiresAt)`, and `a.After(b)` holds iff `a` is
strictly later than `b`. -/
def Manifest.IsExpired (m : Manifest) (now : Int) : Bool :=
  match m.expiresAt with
  | none => false
  | some t => decide (t < now)

/-- `Manifest.AddFile`: rejects sealed manifests and duplicate paths, appends
otherwise. -/
def Manifest.AddFile (m : Manifest) (entry : FileEntry) :
    Except String Manifest :=
  if m.state = "sealed" then .error "cannot add files to a sealed container"
  else if m.files.any (fun f => f.path = entry.path) then
    .error ("duplicate file path: " ++ entry.path)
  else .ok { m with files := m.files ++ [entry] }

/-- `Manifest.Seal` at instant `now`: rejects sealed and empty manifests, else
sets `sealed_at` and the sealed state. -/
def Manifest.Seal (m : Manifest) (now : Int) : Except String Manifest :=
  if m.state = "sealed" then .error "container is already sealed"
  else if m.files.length = 0 then .error "cannot seal an empty container"
  else .ok { m with sealedAt := some now, state := "sealed" }

/-! ## Crypto primitives (pkg/crypto)

Standard-library primitives (SHA-256, HMAC-SHA256, AES-256-GCM, the Ed25519
curve arithmetic, base64, PEM framing, RFC 3339 rendering) are collected in
`Prims`; theorems assume only their standard contracts.  The repository's own
crypto code (its hand-rolled PBKDF2, the nonce framing of Encrypt/Decrypt and
the wrappers) is translated below. -/

/-- Abstract standard-library primitives. -/
structure Prims where
  /-- `sha256.Sum256` (always 32 bytes for the real function). -/
  hash : Bytes → Bytes
  /-- `hmac.New(sha256.New, key)` applied to a message. -/
  hmacSHA256 : Bytes → Bytes → Bytes
  /-- AES-256-GCM `gcm.Seal(nil, nonce, plaintext, nil)`: ciphertext‖tag. -/
  aeadSeal : Bytes → Bytes → Bytes → Bytes
  /-- AES-256-GCM `gcm.Open(nil, nonce, ciphertext, nil)`; `none` on tag
  mismatch. -/
  aeadOpen : Bytes → Bytes → Bytes → Option Bytes
  /-- Ed25519 curve verification, reached only after the stdlib length
  guards. -/
  ed25519inner : Bytes → String → Bytes → Bool
  /-- `ed25519.Sign` over the signable manifest text. -/
  sign : Bytes → String → Bytes
  /-- `ed25519.PrivateKey.Public()`. -/
  pubOf : Bytes → Bytes
  /-- `MarshalPublicKeyPEM` (PEM framing is stdlib `encoding/pem`). -/
  pemPub : Bytes → Bytes
  /-- `base64.StdEncoding.EncodeToString`. -/
  b64encode : Bytes → String
  /-- `base64.StdEncoding.DecodeString`; `none` on invalid input. -/
  b64decode : String → Option Bytes
  /-- `time.Time.MarshalJSON` body: the RFC 3339 text of an instant. -/
  rfc3339 : Int → String

/-- `PBKDF2Iterations` of the crypto package. -/
def PBKDF2Iterations : Nat := 600000

/-- `KeySize`: AES-256 key size. -/
def KeySize : Nat := 32

/-- `NonceSize`: AES-GCM nonce size. -/
def NonceSize : Nat := 12

/-- UTF-8 encoding of one character. -/
def utf8Char (c : Char) : Bytes :=
  let n := c.toNat
  if n < 128 then [n]
  else if n < 2048 then [192 + n / 64, 128 + n % 64]
  else if n < 65536 then [224 + n / 4096, 128 + n / 64 % 64, 128 + n % 64]
  else [240 + n / 262144, 128 + n / 4096 % 64, 128 + n / 64 % 64, 128 + n % 64]

/-- Go `[]byte(s)`: the UTF-8 bytes of a string. -/
def strBytes (s : String) : Bytes :=
  s.data.foldr (fun c acc => utf8Char c ++ acc) []

/-- The four big-endian bytes `INT_32_BE(blockNum)` written by
`pbkdf2Block`. -/
def int32BE (n : Nat) : Bytes :=
  [n / 2 ^ 24 % 256, n / 2 ^ 16 % 256, n / 2 ^ 8 % 256, n % 256]

/-- The U₂..U_c loop of `pbkdf2Block`: `u = HMAC(password, u)` then
`result[j] ^= u[j]`.  In the source both byte strings have the fixed HMAC
output length; `zipWith` coincides with the Go loop whenever `u` is at least
as long as `result`. -/
def pbkdf2Loop (hmac : Bytes → Bytes → Bytes) (password : Bytes) :
    Nat → Bytes → Bytes → Bytes
  | 0, _, result => result
  | k + 1, u, result =>
    let u2 := hmac password u
    pbkdf2Loop hmac password k u2 (List.zipWith Nat.xor result u2)

/-- `pbkdf2Block` of the crypto package: U₁ = HMAC(password, salt‖INT_32_BE
(blockNum)), then `iterations - 1` further HMAC/xor rounds. -/
def pbkdf2Block (hmac : Bytes → Bytes → Bytes) (password salt : Bytes)
    (iterations blockNum : Nat) : Bytes :=
  let u1 := hmac password (salt ++ int32BE blockNum)
  pbkdf2Loop hmac password (iterations - 1) u1 u1

/-- `pbkdf2` of the crypto package: enough SHA-256-sized blocks to cover
`keyLen`, truncated to `keyLen`. -/
def pbkdf2 (hmac : Bytes → Bytes → Bytes) (password salt : Bytes)
    (iterations keyLen : Nat) : Bytes :=
  let numBlocks := (keyLen + 32 - 1) / 32
  (((List.range numBlocks).map
      (fun b => pbkdf2Block hmac password salt iterations (b + 1))).flatten).take keyLen

/-- `DeriveKey` of the crypto package: PBKDF2 with the package-level constant
`PBKDF2Iterations` (600000) and `KeySize` - the iteration count is NOT a
parameter of this function. -/
def DeriveKey (P : Prims) (passphrase : String) (salt : Bytes) : Bytes :=
  pbkdf2 P.hmacSHA256 (strBytes passphrase) salt PBKDF2Iterations KeySize

/-- `Encrypt` of the crypto package with the fresh random nonce made
explicit: returns `nonce ‖ ciphertext ‖ tag` (Go `gcm.Seal(nonce, nonce,
plaintext, nil)`). -/
def EncryptC (P : Prims) (key nonce plaintext : Bytes) : Bytes :=
  nonce ++ P.aeadSeal key nonce plaintext

/-- `Decrypt` of the crypto package: split off the 12-byte nonce, then AEAD
open; errors on short input or tag mismatch. -/
def DecryptC (P : Prims) (key data : Bytes) : Except String Bytes :=
  if data.length < NonceSize then .error "ciphertext too short"
  else
    match P.aeadOpen key (data.take NonceSize) (data.drop NonceSize) with
    | some plaintext => .ok plaintext
    | none => .error "message authentication failed"

/-- Go stdlib `ed25519.Verify`: PANICS (here `.error`) when the public key is
not exactly 32 bytes; returns `false` on a malformed signature (wrong length
or high bits set in the last byte); otherwise runs the curve equation. -/
def ed25519Verify (P : Prims) (publicKey : Bytes) (message : String)
    (signature : Bytes) : Except String Bool :=
  if publicKey.length ≠ 32 then
    .error ("ed25519: bad public key length: " ++ decRepr publicKey.length)
  else if signature.length ≠ 64 ∨ Nat.land (signature.getD 63 0) 224 ≠ 0 then
    .ok false
  else .ok (P.ed25519inner publicKey message signature)

/-- `crypto.Verify` of the repository: a direct call to `ed25519.Verify`, so
the stdlib panic propagates. -/
def CryptoVerify (P : Prims) (publicKey : Bytes) (message : String)
    (signature : Bytes) : Except String Bool :=
  ed25519Verify P publicKey message signature

/-! ## Container engine (pkg/container/container.go)

The on-disk ZIP archive is modelled as the parsed manifest plus the list of
the remaining members.  `readContainer` (locate `manifest.json`, deserialize)
is the inverse of the canonical serialization for every manifest this engine
writes, so the archive is carried in parsed form; `readZipEntries` keeps Go
map semantics via `lookupLast`. -/

/-- `manifestPath`. -/
def manifestPath : String := "manifest.json"

/-- `filesDir`. -/
def filesDir : String := "files/"

/-- `sealedMarker`. -/
def sealedMarker : String := ".sealed"

/-- `pubKeyPath`. -/
def pubKeyPath : String := "keyring/public.key"

/-- A container archive: the manifest member plus all other ZIP members. -/
structure Archive where
  manifest : Manifest
  entries : List (String × Bytes)
deriving DecidableEq

/-- `SealOptions`. -/
structure SealOptions where
  privateKey : Bytes
  embedPubKey : Bool
  passphrase : String
  expiresAt : Option Int

/-- `ExtractOptions` (the output directory prefixes every write identically
and is dropped from the model; writes are `(original_name, bytes)` events). -/
structure ExtractOptions where
  passphrase : String
  ignoreExpiry : Bool

/-- `VerifyOptions`. -/
structure VerifyOptions where
  publicKey : Option Bytes
  ignoreExpiry : Bool

/-- `readZipEntries`: all members except the excluded paths (the manifest
member is always excluded by every caller). -/
def readZipEntries (a : Archive) (excl : List String) :
    List (String × Bytes) :=
  a.entries.filter (fun p => ¬ excl.contains p.1)

/-- `Create`: a fresh archive holding only an open manifest (the `.imf`
extension and existing-file checks are I/O-level preconditions). -/
def Create (now : Int) : Archive :=
  { manifest := Manifest.New now, entries := [] }

/-- Go `filepath.Base` on slash-separated paths: strip trailing slashes, take
the last element; `"."` for the empty path, `"/"` when only separators
remain. -/
def baseName (p : String) : String :=
  if p = "" then "."
  else
    let stripped := p.data.reverse.dropWhile (fun c => c = '/')
    let base := stripped.takeWhile (fun c => c ≠ '/')
    if base = [] then "/" else String.mk base.reverse

/-- `entryExists`: does the manifest already use this archive path? -/
def entryExists (m : Manifest) (path : String) : Bool :=
  m.files.any (fun f => f.path = path)

/-- The collision candidate `fmt.Sprintf("%s%s_%d%s", filesDir, name, suffix,
ext)` built in Add's collision loop. -/
def candPath (base : String) (suffix : Nat) : String :=
  filesDir ++ (splitExt base).1 ++ "_" ++ decRepr suffix ++ (splitExt base).2

/-- Whether a candidate archive path is taken, by a prior manifest entry or
by a pending entry of the same Add call (`entryExists(m, p) ||
newEntries[p] != nil`). -/
def occupied (m : Manifest) (pending : List (String × Bytes)) (p : String) :
    Bool :=
  entryExists m p || (lookupLast pending p).isSome

/-- Add's collision loop, with fuel (the loop terminates because only
finitely many paths are taken; `assignPath` supplies sufficient fuel): while
the current candidate is taken, move to the next numbered candidate. -/
def addLoop (occ : String → Bool) (base : String) :
    Nat → String → Nat → String
  | 0, zipPath, _ => zipPath
  | fuel + 1, zipPath, suffix =>
    if occ zipPath then addLoop occ base fuel (candPath base suffix) (suffix + 1)
    else zipPath

/-- Fuel bound for the collision loop: more candidates than taken paths. -/
def assignFuel (m : Manifest) (pending : List (String × Bytes)) : Nat :=
  m.files.length + pending.length + 2

/-- The in-archive path Add assigns to a file with base name `base`, given
the manifest so far and the pending entries of the same call. -/
def assignPath (m : Manifest) (pending : List (String × Bytes))
    (base : String) : String :=
  addLoop (occupied m pending) base (assignFuel m pending) (filesDir ++ base) 1

/-- The per-file loop of `Add`: hash the plaintext, assign a collision-free
path, append the manifest entry and record the pending member. -/
def addFilesAux (P : Prims) :
    List (String × Bytes) → Manifest → List (String × Bytes) →
      Except String (Manifest × List (String × Bytes))
  | [], m, newEntries => .ok (m, newEntries)
  | (fp, data) :: rest, m, newEntries =>
    let base := baseName fp
    let zipPath := assignPath m newEntries base
    let entry : FileEntry :=
      { path := zipPath, originalName := base, originalSize := data.length,
        sha256 := hexEncode (P.hash data), encryptedSHA256 := "" }
    match m.AddFile entry with
    | .error e => .error ("adding " ++ base ++ " to manifest: " ++ e)
    | .ok m2 => addFilesAux P rest m2 (newEntries ++ [(zipPath, data)])

/-- `rewriteContainer`: the whole archive is rewritten - manifest first, then
the existing members, then the new ones (member order is immaterial under map
semantics; all keys are distinct in every reachable call). -/
def rewriteContainer (m : Manifest) (existing newEntries : List (String × Bytes)) :
    Archive :=
  { manifest := m, entries := existing ++ newEntries }

/-- `Add`: reject sealed containers, process each input file, rewrite.
Inputs are `(disk path, bytes)` pairs - the `os.ReadFile` I/O made explicit. -/
def Add (P : Prims) (a : Archive) (inputs : List (String × Bytes)) :
    Except String Archive :=
  if a.manifest.IsSealed then .error "cannot add files to a sealed container"
  else
    let existing := readZipEntries a [manifestPath]
    match addFilesAux P inputs a.manifest [] with
    | .error e => .error e
    | .ok (m2, newEntries) => .ok (rewriteContainer m2 existing newEntries)

/-- The encryption loop of Seal (`for i, fe := range m.Files`): load the
plaintext member, encrypt with this file's fresh nonce, record the ciphertext
hash, rename to `path + ".enc"`. -/
def encryptFiles (P : Prims) (encKey : Bytes) (nonces : Nat → Bytes)
    (existing : List (String × Bytes)) :
    List FileEntry → Nat →
      Except String (List FileEntry × List (String × Bytes))
  | [], _ => .ok ([], [])
  | fe :: rest, i =>
    match lookupLast existing fe.path with
    | none => .error ("file not found in container: " ++ fe.path)
    | some plaintext =>
      let ciphertext := EncryptC P encKey (nonces i) plaintext
      let encPath := fe.path ++ ".enc"
      let fe2 := { fe with
        encryptedSHA256 := hexEncode (P.hash ciphertext), path := encPath }
      match encryptFiles P encKey nonces existing rest (i + 1) with
      | .error e => .error e
      | .ok (fes, procs) => .ok (fe2 :: fes, (encPath, ciphertext) :: procs)

/-- Steps 2-7 of `Seal` (expiry, key embedding, state transition, signing,
marker), applied to the manifest and member set produced by the optional
encryption phase. -/
def sealFinish (P : Prims) (opts : SealOptions) (now : Int) (m1 : Manifest)
    (processed : List (String × Bytes)) : Except String Archive :=
  let m2 := match opts.expiresAt with
    | some t => { m1 with expiresAt := some t }
    | none => m1
  let embedded :=
    if opts.embedPubKey then
      let pubKey := P.pubOf opts.privateKey
      ({ m2 with publicKey := P.b64encode pubKey },
       processed ++ [(pubKeyPath, P.pemPub pubKey)])
    else (m2, processed)
  match embedded.1.Seal now with
  | .error e => .error e
  | .ok m4 =>
    let signable := Manifest.SignableBytes P.rfc3339 m4
    let sig := P.sign opts.privateKey signable
    let m5 := { m4 with signature := P.b64encode sig }
    .ok { manifest := m5,
          entries := embedded.2 ++ [(sealedMarker, strBytes "sealed")] }

/-- `Seal`: the atomic sequence of container.go with the random salt and the
per-file nonces made explicit.  Returns the rewritten archive, or the error
raised before the final rewrite. -/
def Seal (P : Prims) (a : Archive) (opts : SealOptions) (now : Int)
    (salt : Bytes) (nonces : Nat → Bytes) : Except String Archive :=
  if a.manifest.IsSealed then .error "container is already sealed"
  else
    let m := a.manifest
    let existing := readZipEntries a [manifestPath]
    let step1 : Except String (Manifest × List (String × Bytes)) :=
      if opts.passphrase ≠ "" then
        let encKey := DeriveKey P opts.passphrase salt
        let encInfo : EncryptionInfo :=
          { algorithm := "AES-256-GCM", kdf := "PBKDF2-HMAC-SHA256",
            salt := P.b64encode salt,
            iterations := (PBKDF2Iterations : Int) }
        let m1 := { m with encryption := some encInfo }
        match encryptFiles P encKey nonces existing m.files 0 with
        | .error e => .error e
        | .ok (fes, procs) => .ok ({ m1 with files := fes }, procs)
      else .ok (m, existing)
    match step1 with
    | .error e => .error e
    | .ok (m1, processed) => sealFinish P opts now m1 processed

/-- The on-disk effect of a Seal call: the target file is rewritten only by
the final `rewriteContainer`; every earlier failure returns before any write,
leaving the prior archive in place. -/
def SealDisk (P : Prims) (a : Archive) (opts : SealOptions) (now : Int)
    (salt : Bytes) (nonces : Nat → Bytes) : Archive :=
  match Seal P a opts now salt nonces with
  | .error _ => a
  | .ok a2 => a2

/-- Error kinds of `Verify`, one per `return` site in container.go. -/
inductive VerifyError where
  | notSealed
  | expired
  | noVerifyKey
  | badKeyEncoding
  | badSigEncoding
  | signatureInvalid
  | fileMissing (path : String)
  | hashMismatch (name : String)
deriving DecidableEq

/-- Outcome of `Verify`: an error value, success, or a runtime panic escaping
from the Go standard library. -/
inductive VerifyOutcome where
  | panicked (msg : String)
  | failed (e : VerifyError)
  | ok
deriving DecidableEq

/-- The per-file hash checks at the end of `Verify`: each listed entry must
be present, and when `encrypted_sha256` is non-empty the stored bytes must
hash to it.  Unlisted members are never examined. -/
def checkFiles (P : Prims) (entries : List (String × Bytes)) :
    List FileEntry → VerifyOutcome
  | [] => .ok
  | fe :: rest =>
    match lookupLast entries fe.path with
    | none => .failed (.fileMissing fe.path)
    | some data =>
      if fe.encryptedSHA256 ≠ "" ∧ hexEncode (P.hash data) ≠ fe.encryptedSHA256
      then .failed (.hashMismatch fe.originalName)
      else checkFiles P entries rest

/-- The key-selection step of `Verify` (lines 363-375): the explicit option
key wins; otherwise the embedded `public_key` is base64-decoded with no
length check. -/
def verifyPubKey (P : Prims) (m : Manifest) (opts : VerifyOptions) :
    Except VerifyError Bytes :=
  match opts.publicKey with
  | some k => .ok k
  | none =>
    if m.publicKey = "" then .error .noVerifyKey
    else
      match P.b64decode m.publicKey with
      | none => .error .badKeyEncoding
      | some kb => .ok kb

/-- The tail of `Verify` after the state and expiry checks: key selection,
signature check over the recomputed signable bytes, per-file ciphertext hash
checks. -/
def verifyKeyAndFiles (P : Prims) (a : Archive) (opts : VerifyOptions) :
    VerifyOutcome :=
  match verifyPubKey P a.manifest opts with
  | .error e => .failed e
  | .ok pubKey =>
    match P.b64decode a.manifest.signature with
    | none => .failed .badSigEncoding
    | some sigBytes =>
      match CryptoVerify P pubKey
          (Manifest.SignableBytes P.rfc3339 a.manifest) sigBytes with
      | .error msg => .panicked msg
      | .ok false => .failed .signatureInvalid
      | .ok true =>
        checkFiles P (readZipEntries a [manifestPath, sealedMarker, pubKeyPath])
          a.manifest.files

/-- `Verify` of container.go: sealed-state check, expiry check, then key
selection, signature check and per-file ciphertext hash checks. -/
def Verify (P : Prims) (a : Archive) (opts : VerifyOptions) (now : Int) :
    VerifyOutcome :=
  if !a.manifest.IsSealed then .failed .notSealed
  else if a.manifest.IsExpired now && !opts.ignoreExpiry then .failed .expired
  else verifyKeyAndFiles P a opts

/-- The decryption-key derivation step of `Extract` (lines 449-462): requires
a passphrase when the manifest records encryption, decodes the manifest salt
and calls `DeriveKey` - which uses the package constant, never
`m.encryption.iterations`. -/
def extractDecKey (P : Prims) (m : Manifest) (passphrase : String) :
    Except String (Option Bytes) :=
  match m.encryption with
  | none => .ok none
  | some e =>
    if passphrase = "" then
      .error "container is encrypted but no passphrase provided"
    else
      match P.b64decode e.salt with
      | none => .error "decoding salt"
      | some salt => .ok (some (DeriveKey P passphrase salt))

/-- The per-file loop of `Extract`: load the stored bytes, decrypt when the
container is encrypted, verify the plaintext hash, then write
`outputDir/<original_name>` (writes are returned as ordered events). -/
def extractLoop (P : Prims) (decKey : Option Bytes)
    (entries : List (String × Bytes)) :
    List FileEntry → Except String (List (String × Bytes))
  | [] => .ok []
  | fe :: rest =>
    match lookupLast entries fe.path with
    | none => .error ("file missing from container: " ++ fe.path)
    | some data =>
      let plainE : Except String Bytes :=
        match decKey with
        | some k => DecryptC P k data
        | none => .ok data
      match plainE with
      | .error e => .error ("decrypting " ++ fe.originalName ++ ": " ++ e)
      | .ok plaintext =>
        if hexEncode (P.hash plaintext) ≠ fe.sha256 then
          .error ("INTEGRITY FAILURE: hash mismatch for " ++ fe.originalName)
        else
          match extractLoop P decKey entries rest with
          | .error e => .error e
          | .ok writes => .ok ((fe.originalName, plaintext) :: writes)

/-- `extractUnsealed`: open containers are copied out without decryption or
hash checks. -/
def extractUnsealed (a : Archive) : Except String (List (String × Bytes)) :=
  let entries := readZipEntries a [manifestPath]
  let rec go : List FileEntry → Except String (List (String × Bytes))
    | [] => .ok []
    | fe :: rest =>
      match lookupLast entries fe.path with
      | none => .error ("file missing from container: " ++ fe.path)
      | some data =>
        match go rest with
        | .error e => .error e
        | .ok writes => .ok ((fe.originalName, data) :: writes)
  go a.manifest.files

/-- `Extract` of container.go: unsealed containers are copied out; sealed
ones go through expiry check, key derivation, then the per-file
decrypt/verify/write loop.  The result is the ordered list of
`(original_name, plaintext)` writes into the output directory. -/
def Extract (P : Prims) (a : Archive) (opts : ExtractOptions) (now : Int) :
    Except String (List (String × Bytes)) :=
  let m := a.manifest
  if !m.IsSealed then extractUnsealed a
  else if m.IsExpired now && !opts.ignoreExpiry then
    .error "container expired"
  else
    let entries := readZipEntries a [manifestPath, sealedMarker, pubKeyPath]
    match extractDecKey P m opts.passphrase with
    | .error e => .error e
    | .ok decKey => extractLoop P decKey entries m.files

/-! ## Claim theorems -/

/-- A concrete instantiation of the standard-library primitives, used by the
witness theorems to evaluate the engine on closed inputs. -/
def P0 : Prims where
  hash := fun _ => List.replicate 32 0
  hmacSHA256 := fun _ _ => List.replicate 32 0
  aeadSeal := fun _ _ p => p
  aeadOpen := fun _ _ c => some c
  ed25519inner := fun _ _ _ => true
  sign := fun _ _ => []
  pubOf := fun k => k
  pemPub := fun k => k
  b64encode := fun _ => "b64"
  b64decode := fun _ => some []
  rfc3339 := fun _ => "T"

theorem checkFiles_ne_expired (P : Prims) (entries : List (String × Bytes))
    (fes : List FileEntry) :
    checkFiles P entries fes ≠ .failed .expired := by
  induction fes with
  | nil => simp [checkFiles]
  | cons fe rest ih =>
    simp only [checkFiles]
    cases lookupLast entries fe.path with
    | none => simp
    | some data =>
      by_cases hc : fe.encryptedSHA256 ≠ "" ∧
          hexEncode (P.hash data) ≠ fe.encryptedSHA256
      · simp [hc]
      · simp only [if_neg hc]
        exact ih

theorem verifyPubKey_ne_expired (P : Prims) (m : Manifest)
    (opts : VerifyOptions) : verifyPubKey P m opts ≠ .error .expired := by
  unfold verifyPubKey
  cases opts.publicKey with
  | some k => simp
  | none =>
    by_cases hemb : m.publicKey = ""
    · simp [hemb]
    · simp only [if_neg hemb]
      cases P.b64decode m.publicKey <;> simp

theorem verifyKeyAndFiles_ne_expired (P : Prims) (a : Archive)
    (opts : VerifyOptions) :
    verifyKeyAndFiles P a opts ≠ .failed .expired := by
  unfold verifyKeyAndFiles
  split
  next e heq =>
    intro hcon
    injection hcon with h1
    subst h1
    exact verifyPubKey_ne_expired P a.manifest opts heq
  next pubKey heq =>
    split
    next => simp
    next sigBytes hsig =>
      split
      next msg hv => simp
      next hv => simp
      next hv => exact checkFiles_ne_expired P _ _

/-- C6: expiration is strict - a container is expired iff `expires_at` is
present and strictly earlier than the current UTC instant (equality is not
expired), and `Verify` on a sealed container whose `expires_at` lies strictly
in the past fails with `Expired` exactly when `ignoreExpiry` is false. -/
theorem expiration_strict (P : Prims) (a : Archive) (opts : VerifyOptions)
    (now : Int) :
    (a.manifest.IsExpired now = true ↔
      ∃ u, a.manifest.expiresAt = some u ∧ u < now) ∧
    (∀ t : Int, a.manifest.expiresAt = some t → t < now →
      a.manifest.IsSealed = true →
      (Verify P a opts now = .failed .expired ↔ opts.ignoreExpiry = false)) := by
  constructor
  · unfold Manifest.IsExpired
    cases h : a.manifest.expiresAt with
    | none => simp
    | some u => simp
  · intro t hExp hlt hSealed
    have hexp : a.manifest.IsExpired now = true := by
      unfold Manifest.IsExpired
      rw [hExp]
      simpa using hlt
    unfold Verify
    rw [hSealed, hexp]
    cases hig : opts.ignoreExpiry with
    | false => simp
    | true =>
      simp only [Bool.not_true, Bool.and_false, Bool.not_false]
      simp only [Bool.false_eq_true, if_false]
      constructor
      · intro hres
        exact absurd hres (verifyKeyAndFiles_ne_expired P a opts)
      · intro h
        cases h

/-- The concrete sealed, expiring manifest used in the C6 witness. -/
def mExpiry : Manifest :=
  { version := 1, state := "sealed", createdAt := 0, sealedAt := some 1,
    expiresAt := some 5, publicKey := "", encryption := none, files := [],
    signature := "" }

/-- C6 witness: at `now = 5` (equal instants) the container is not expired;
at `now = 7` the expiry has strictly passed and `Verify` with
`ignoreExpiry = false` fails with `Expired`. -/
theorem expiration_strict_witness :
    (Archive.mk mExpiry []).manifest.IsExpired 5 = false ∧
    Verify P0 (Archive.mk mExpiry []) ⟨none, false⟩ 7 = .failed .expired := by
  have h := expiration_strict P0 (Archive.mk mExpiry []) ⟨none, false⟩ 7
  refine ⟨by decide, ?_⟩
  exact (h.2 5 rfl (by decide) (by decide)).mpr rfl

theorem quoteString_data (s : String) :
    (quoteString s).data =
      '"' :: s.data.foldr (fun c acc => escapeChar c ++ acc) ['"'] := rfl

theorem renderCObj_cons_head (f : String × Json) (fs : List (String × Json)) :
    ∃ r, (renderCObj (f :: fs)).data = '"' :: r := by
  cases fs with
  | nil =>
    refine ⟨((quoteString f.1).data.tail ++ (":" ++ renderC f.2).data), ?_⟩
    show ((quoteString f.1 ++ ":" ++ renderC f.2)).data = _
    rw [String.data_append, String.data_append, quoteString_data]
    simp
  | cons g gs =>
    refine ⟨((quoteString f.1).data.tail ++
      (":" ++ renderC f.2 ++ "," ++ renderCObj (g :: gs)).data), ?_⟩
    show ((quoteString f.1 ++ ":" ++ renderC f.2 ++ "," ++
      renderCObj (g :: gs))).data = _
    rw [String.data_append, String.data_append, String.data_append,
      String.data_append, quoteString_data]
    simp

theorem renderC_obj_cons_head (f : String × Json) (fs : List (String × Json)) :
    ∃ r, (renderC (.obj (f :: fs))).data = Char.ofNat 123 :: '"' :: r := by
  obtain ⟨r, hr⟩ := renderCObj_cons_head f fs
  refine ⟨r ++ rbr.data, ?_⟩
  show (lbr ++ renderCObj (f :: fs) ++ rbr).data = _
  rw [String.data_append, String.data_append, hr]
  simp [lbr]

theorem renderI_obj_cons_head (d : Nat) (f : String × Json)
    (fs : List (String × Json)) :
    ∃ r, (renderI d (.obj (f :: fs))).data = Char.ofNat 123 :: '\n' :: r := by
  refine ⟨(renderIObj (d + 1) (f :: fs) ++ "\n" ++ indentOf d ++ rbr).data, ?_⟩
  show (lbr ++ "\n" ++ (renderIObj (d + 1) (f :: fs)) ++ "\n" ++ indentOf d ++
    rbr).data = _
  rw [String.data_append, String.data_append, String.data_append,
    String.data_append, String.data_append]
  simp [lbr]

theorem jsonFields_cons (rfc : Int → String) (m : Manifest) :
    ∃ fs, Manifest.jsonFields rfc m = ("version", Json.num m.version) :: fs :=
  ⟨_, rfl⟩

theorem jsonFieldsSigPresent_cons (rfc : Int → String) (m : Manifest) :
    ∃ fs, Manifest.jsonFieldsSigPresent rfc m =
      ("version", Json.num m.version) :: fs :=
  ⟨_, rfl⟩

/-- C1 counterexample: for the freshly created manifest (rendered with a
fixed timestamp text), the signable bytes produced by the code are NOT the
two-space-indented canonical serialization with the `signature` field present
as an empty string, which is what the claim asserts. -/
theorem signable_bytes_counterexample :
    Manifest.SignableBytes (fun _ => "T") (Manifest.New 0) ≠
      Manifest.specSignableBytes (fun _ => "T") (Manifest.New 0) := by
  decide

/-- C1 (amended): the signable bytes are the COMPACT `json.Marshal`
serialization of the manifest with `signature` set to empty - and because the
field carries `omitempty`, the `signature` key is omitted from the output
altogether; consequently the signable bytes never coincide with the
two-space-indented signature-present form that the specification describes. -/
theorem signable_bytes_compact_no_signature (rfc : Int → String)
    (m : Manifest) :
    Manifest.SignableBytes rfc m =
      renderC (Json.obj (Manifest.jsonFields rfc { m with signature := "" })) ∧
    "signature" ∉
      (Manifest.jsonFields rfc { m with signature := "" }).map Prod.fst ∧
    Manifest.SignableBytes rfc m ≠ Manifest.specSignableBytes rfc m := by
  refine ⟨rfl, ?_, ?_⟩
  · cases hs : m.sealedAt <;> cases he : m.expiresAt <;>
      cases hc : m.encryption <;> by_cases hp : m.publicKey = "" <;>
      simp [Manifest.jsonFields, hs, he, hc, hp]
  · intro hcon
    obtain ⟨fs, hfs⟩ := jsonFields_cons rfc { m with signature := "" }
    obtain ⟨gs, hgs⟩ := jsonFieldsSigPresent_cons rfc { m with signature := "" }
    unfold Manifest.SignableBytes at hcon
    unfold Manifest.specSignableBytes at hcon
    rw [hfs, hgs] at hcon
    obtain ⟨r1, hr1⟩ := renderC_obj_cons_head ("version", Json.num m.version) fs
    obtain ⟨r2, hr2⟩ := renderI_obj_cons_head 0 ("version", Json.num m.version) gs
    have hdata := congrArg String.data hcon
    rw [hr1, hr2] at hdata
    injection hdata with h1 h2
    injection h2 with h3 h4
    exact absurd h3 (by decide)

/-- A concrete encrypted manifest whose recorded KDF iteration count (1000)
differs from the reader-side constant 600000. -/
def mIter1000 : Manifest :=
  { version := 1, state := "sealed", createdAt := 0, sealedAt := some 1,
    expiresAt := none, publicKey := "", encryption := some
      { algorithm := "AES-256-GCM", kdf := "PBKDF2-HMAC-SHA256",
        salt := "SALT", iterations := 1000 },
    files := [], signature := "" }

/-- C2: the decryption key computed by Extract comes from `DeriveKey`, which
always passes the package constant `PBKDF2Iterations = 600000` to PBKDF2 -
the iteration count recorded in the manifest (`1000` here) is never read.
The claim, following the spec, requires the recorded count to be used. -/
theorem extract_uses_hardcoded_iterations (P : Prims) (s0 : Bytes)
    (hsalt : P.b64decode "SALT" = some s0) :
    extractDecKey P mIter1000 "pw" =
      .ok (some (pbkdf2 P.hmacSHA256 (strBytes "pw") s0 PBKDF2Iterations KeySize)) ∧
    PBKDF2Iterations = 600000 ∧
    (mIter1000.encryption.map EncryptionInfo.iterations) = some 1000 := by
  refine ⟨?_, rfl, rfl⟩
  unfold extractDecKey
  show (if ("pw" : String) = "" then _ else _) = _
  rw [if_neg (by decide)]
  show (match P.b64decode "SALT" with
        | none => Except.error "decoding salt"
        | some salt => Except.ok (some (DeriveKey P "pw" salt))) = _
  rw [hsalt]
  rfl

/-- C2 witness: with a concrete base64 decoder the hypothesis is discharged
and Extract's key-derivation step concretely evaluates to a PBKDF2 call with
600000 iterations against a manifest recording 1000. -/
theorem extract_uses_hardcoded_iterations_witness :
    extractDecKey { P0 with b64decode := fun _ => some [9] } mIter1000 "pw" =
      .ok (some (pbkdf2 (fun _ _ => List.replicate 32 0) (strBytes "pw") [9]
        PBKDF2Iterations KeySize)) ∧
    PBKDF2Iterations = 600000 ∧
    (mIter1000.encryption.map EncryptionInfo.iterations) = some 1000 :=
  extract_uses_hardcoded_iterations { P0 with b64decode := fun _ => some [9] }
    [9] rfl

/-- C3: Go `ed25519.Verify` panics when the public key length is not 32
bytes, and container `Verify` feeds it the base64-decoded embedded
`public_key` without any length check - so a container whose embedded key
decodes to a wrong-length byte string crashes `Verify` instead of returning
an error value, contradicting the claim that verification is total. -/
theorem verify_panics_on_bad_key_length (P : Prims) (a : Archive)
    (opts : VerifyOptions) (now : Int) (kb sigBytes : Bytes)
    (hSealed : a.manifest.IsSealed = true)
    (hNotExp : (a.manifest.IsExpired now && !opts.ignoreExpiry) = false)
    (hOpt : opts.publicKey = none)
    (hEmb : a.manifest.publicKey ≠ "")
    (hDec : P.b64decode a.manifest.publicKey = some kb)
    (hLen : kb.length ≠ 32)
    (hSig : P.b64decode a.manifest.signature = some sigBytes) :
    Verify P a opts now =
      .panicked ("ed25519: bad public key length: " ++ decRepr kb.length) ∧
    ∀ (msg : String) (sig : Bytes), CryptoVerify P kb msg sig =
      .error ("ed25519: bad public key length: " ++ decRepr kb.length) := by
  have hcv : ∀ (msg : String) (sig : Bytes), CryptoVerify P kb msg sig =
      .error ("ed25519: bad public key length: " ++ decRepr kb.length) := by
    intro msg sig
    unfold CryptoVerify ed25519Verify
    rw [if_pos hLen]
  refine ⟨?_, hcv⟩
  unfold Verify
  rw [hSealed, hNotExp]
  simp only [Bool.not_true, Bool.false_eq_true, if_false, if_neg]
  unfold verifyKeyAndFiles
  have hpk : verifyPubKey P a.manifest opts = .ok kb := by
    unfold verifyPubKey
    rw [hOpt, if_neg hEmb, hDec]
  rw [hpk, hSig]
  show (match CryptoVerify P kb (Manifest.SignableBytes P.rfc3339 a.manifest)
      sigBytes with
    | Except.error msg => VerifyOutcome.panicked msg
    | Except.ok false => VerifyOutcome.failed VerifyError.signatureInvalid
    | Except.ok true =>
      checkFiles P (readZipEntries a [manifestPath, sealedMarker, pubKeyPath])
        a.manifest.files) = _
  rw [hcv]

/-- The concrete sealed manifest for the C3 witness: its embedded public key
decodes to 31 bytes. -/
def mBadKey : Manifest :=
  { version := 1, state := "sealed", createdAt := 0, sealedAt := some 1,
    expiresAt := none, publicKey := "PK31", encryption := none, files := [],
    signature := "SG" }

/-- C3 witness: on a concrete sealed container whose embedded key decodes to
31 bytes, `Verify` ends in the ed25519 panic rather than an error value. -/
theorem verify_panics_on_bad_key_length_witness :
    Verify { P0 with b64decode := fun s =>
        if s = "PK31" then some (List.replicate 31 0) else some [] }
      (Archive.mk mBadKey []) ⟨none, false⟩ 0 =
      .panicked ("ed25519: bad public key length: " ++ decRepr 31) := by
  have h := verify_panics_on_bad_key_length
    { P0 with b64decode := fun s =>
        if s = "PK31" then some (List.replicate 31 0) else some [] }
    (Archive.mk mBadKey []) ⟨none, false⟩ 0 (List.replicate 31 0) []
    (by decide) (by decide) rfl (by decide) (by decide) (by decide) (by decide)
  simpa using h.1

/-- C5: Seal error atomicity - whenever Seal returns an error (and every
failure happens before the final rewrite: the already-sealed rejection, the
empty-container rejection inside the state transition, a missing member in
the encryption phase), the on-disk container is unchanged; moreover an
already-sealed container and an empty container do make Seal fail. -/
theorem seal_error_atomicity (P : Prims) (a : Archive) (opts : SealOptions)
    (now : Int) (salt : Bytes) (nonces : Nat → Bytes) :
    (∀ e, Seal P a opts now salt nonces = .error e →
      SealDisk P a opts now salt nonces = a) ∧
    (a.manifest.IsSealed = true →
      ∃ e, Seal P a opts now salt nonces = .error e) ∧
    (a.manifest.IsSealed = false → a.manifest.files = [] →
      ∃ e, Seal P a opts now salt nonces = .error e) := by
  refine ⟨?_, ?_, ?_⟩
  · intro e h
    unfold SealDisk
    rw [h]
  · intro hSealed
    refine ⟨"container is already sealed", ?_⟩
    unfold Seal
    rw [hSealed]
    simp
  · intro hSealed hFiles
    have hst : ¬ a.manifest.state = "sealed" := by
      simpa [Manifest.IsSealed] using hSealed
    refine ⟨"cannot seal an empty container", ?_⟩
    unfold Seal
    rw [hSealed]
    simp only [Bool.false_eq_true, if_false]
    by_cases hp : opts.passphrase = ""
    · cases hexp : opts.expiresAt <;> cases hembed : opts.embedPubKey <;>
        simp [hp, hexp, hembed, sealFinish, Manifest.Seal, hst, hFiles]
    · cases hexp : opts.expiresAt <;> cases hembed : opts.embedPubKey <;>
        simp [hp, hexp, hembed, sealFinish, Manifest.Seal, hst, hFiles, encryptFiles]

/-- Default seal options used in the C5 witness. -/
def opts0 : SealOptions :=
  { privateKey := [], embedPubKey := false, passphrase := "", expiresAt := none }

/-- C5 witness: sealing an already sealed concrete container fails and the
disk content after the call is exactly the prior archive. -/
theorem seal_error_atomicity_witness :
    (∃ e, Seal P0 (Archive.mk mExpiry []) opts0 0 [] (fun _ => []) = .error e) ∧
    SealDisk P0 (Archive.mk mExpiry []) opts0 0 [] (fun _ => []) =
      Archive.mk mExpiry [] := by
  have h := seal_error_atomicity P0 (Archive.mk mExpiry []) opts0 0 []
    (fun _ => [])
  obtain ⟨e, he⟩ := h.2.1 (by decide)
  exact ⟨⟨e, he⟩, h.1 e he⟩

theorem filter_keys_subset (l : List (String × Bytes))
    (p : String × Bytes → Bool) (x : String)
    (h : x ∈ (l.filter p).map Prod.fst) : x ∈ l.map Prod.fst := by
  obtain ⟨q, hq, hx⟩ := List.mem_map.mp h
  exact List.mem_map.mpr ⟨q, (List.mem_filter.mp hq).1, hx⟩

theorem checkFiles_append_fresh (P : Prims) (entries : List (String × Bytes))
    (name : String) (bs : Bytes) (hfresh : name ∉ entries.map Prod.fst) :
    ∀ fes : List FileEntry, checkFiles P entries fes = .ok →
      checkFiles P (entries ++ [(name, bs)]) fes = .ok := by
  intro fes
  induction fes with
  | nil => intro _; rfl
  | cons fe rest ih =>
    intro hok
    unfold checkFiles at hok ⊢
    cases hl : lookupLast entries fe.path with
    | none => rw [hl] at hok; cases hok
    | some d =>
      rw [hl] at hok
      simp only [] at hok
      have hmem : fe.path ∈ entries.map Prod.fst :=
        lookupLast_isSome_mem entries fe.path (by rw [hl]; rfl)
      have hne : name ≠ fe.path := fun hcon => hfresh (hcon ▸ hmem)
      rw [lookupLast_append_ne entries fe.path name bs hne, hl]
      simp only []
      by_cases hc : fe.encryptedSHA256 ≠ "" ∧
          hexEncode (P.hash d) ≠ fe.encryptedSHA256
      · rw [if_pos hc] at hok; cases hok
      · rw [if_neg hc] at hok ⊢
        exact ih hok

/-- C10: Verify does not enforce the exact-member invariant - if a sealed
container passes Verify, the container with any additional ZIP member (name
distinct from `manifest.json` and from every existing member) still passes,
because Verify only looks up manifest-listed paths and ignores unlisted
members. -/
theorem verify_ignores_extra_member (P : Prims) (a : Archive)
    (opts : VerifyOptions) (now : Int) (name : String) (bs : Bytes)
    (hok : Verify P a opts now = .ok)
    (hname : name ≠ manifestPath)
    (hfresh : name ∉ a.entries.map Prod.fst) :
    Verify P (Archive.mk a.manifest (a.entries ++ [(name, bs)])) opts now =
      .ok := by
  have hm : (Archive.mk a.manifest (a.entries ++ [(name, bs)])).manifest =
      a.manifest := rfl
  unfold Verify at hok ⊢
  rw [hm]
  by_cases hs : a.manifest.IsSealed
  · rw [hs] at hok ⊢
    simp only [Bool.not_true, Bool.false_eq_true, if_false] at hok ⊢
    by_cases hx : (a.manifest.IsExpired now && !opts.ignoreExpiry) = true
    · rw [if_pos hx] at hok; cases hok
    · rw [if_neg hx] at hok ⊢
      unfold verifyKeyAndFiles at hok ⊢
      rw [hm]
      cases hpk : verifyPubKey P a.manifest opts with
      | error e =>
        rw [hpk] at hok
        (try simp only [] at hok)
        cases hok
      | ok pubKey =>
        rw [hpk] at hok
        (try simp only [] at hok)
        (try simp only [])
        cases hsig : P.b64decode a.manifest.signature with
        | none =>
          rw [hsig] at hok
          (try simp only [] at hok)
          cases hok
        | some sigBytes =>
          rw [hsig] at hok
          (try simp only [] at hok)
          (try simp only [])
          cases hv : CryptoVerify P pubKey
              (Manifest.SignableBytes P.rfc3339 a.manifest) sigBytes with
          | error msg =>
            rw [hv] at hok
            (try simp only [] at hok)
            cases hok
          | ok b =>
            rw [hv] at hok
            cases b with
            | false => cases hok
            | true =>
              show checkFiles P (readZipEntries
                (Archive.mk a.manifest (a.entries ++ [(name, bs)]))
                [manifestPath, sealedMarker, pubKeyPath]) a.manifest.files = .ok
              have hra : readZipEntries
                  (Archive.mk a.manifest (a.entries ++ [(name, bs)]))
                  [manifestPath, sealedMarker, pubKeyPath] =
                readZipEntries a [manifestPath, sealedMarker, pubKeyPath] ++
                  (([(name, bs)] : List (String × Bytes)).filter
                    (fun p => ¬ [manifestPath, sealedMarker, pubKeyPath].contains p.1)) := by
                unfold readZipEntries
                exact List.filter_append _ _
              rw [hra]
              by_cases hexcl :
                  name ∈ ([manifestPath, sealedMarker, pubKeyPath] : List String)
              · have hnil : (([(name, bs)] : List (String × Bytes)).filter
                    (fun p => ¬ [manifestPath, sealedMarker, pubKeyPath].contains p.1)) = [] := by
                  simp only [List.mem_cons, List.mem_singleton,
                    List.not_mem_nil, or_false] at hexcl
                  rcases hexcl with h | h | h <;> subst h <;>
                    simp [List.filter, manifestPath, sealedMarker, pubKeyPath]
                rw [hnil, List.append_nil]
                exact hok
              · have hone : (([(name, bs)] : List (String × Bytes)).filter
                    (fun p => ¬ [manifestPath, sealedMarker, pubKeyPath].contains p.1)) = [(name, bs)] := by
                  simp only [List.mem_cons, List.mem_singleton,
                    List.not_mem_nil, or_false, not_or] at hexcl
                  obtain ⟨h1, h2, h3⟩ := hexcl
                  simp [List.filter, h1, h2, h3]
                rw [hone]
                apply checkFiles_append_fresh P _ name bs ?_ _ hok
                intro hmem
                exact hfresh (filter_keys_subset _ _ _ hmem)
  · rw [eq_false_of_ne_true hs] at hok
    cases hok

/-- The concrete sealed manifest for the C10 witness: embedded 32-byte key,
64-byte signature, no files. -/
def mVerOk : Manifest :=
  { version := 1, state := "sealed", createdAt := 0, sealedAt := some 1,
    expiresAt := none, publicKey := "PK", encryption := none, files := [],
    signature := "SG" }

/-- The primitives for the C10 witness: `"PK"` decodes to a 32-byte key,
everything else to a well-formed 64-byte signature. -/
def P10 : Prims :=
  { P0 with b64decode := fun s =>
      if s = "PK" then some (List.replicate 32 0) else some (List.replicate 64 0) }

/-- C10 witness: a concrete archive passing Verify still passes after a
member `extra.txt` is appended. -/
theorem verify_ignores_extra_member_witness :
    Verify P10 (Archive.mk mVerOk [(".sealed", [115])]) ⟨none, false⟩ 0 = .ok ∧
    Verify P10 (Archive.mk mVerOk ([(".sealed", [115])] ++ [("extra.txt", [1])]))
      ⟨none, false⟩ 0 = .ok := by
  refine ⟨by decide, ?_⟩
  exact verify_ignores_extra_member P10 (Archive.mk mVerOk [(".sealed", [115])])
    ⟨none, false⟩ 0 "extra.txt" [1] (by decide) (by decide) (by decide)

/-- The sequence of candidate archive paths the Add collision loop checks:
first `files/<base>`, then `files/<stem>_1<ext>`, `files/<stem>_2<ext>`, ... -/
def candSeq (base : String) : Nat → String
  | 0 => filesDir ++ base
  | k + 1 => candPath base (k + 1)

theorem string_data_inj (s t : String) (h : s.data = t.data) : s = t := by
  cases s
  cases t
  cases h
  rfl

theorem decRepr_data_inj (a b : Nat)
    (h : (decRepr a).data = (decRepr b).data) : a = b :=
  decRepr_inj a b (string_data_inj _ _ h)

theorem candSeq_injective (base : String) :
    Function.Injective (candSeq base) := by
  have hbase : ((splitExt base).1).data ++ ((splitExt base).2).data =
      base.data := splitExt_concat base
  intro i j h
  match i, j with
  | 0, 0 => rfl
  | 0, k + 1 =>
    exfalso
    have hd := congrArg (fun s => s.data.length) h
    simp only [candSeq, candPath, String.data_append, List.length_append] at hd
    rw [← hbase] at hd
    simp [List.length_append] at hd
    omega
  | k + 1, 0 =>
    exfalso
    have hd := congrArg (fun s => s.data.length) h
    simp only [candSeq, candPath, String.data_append, List.length_append] at hd
    rw [← hbase] at hd
    simp [List.length_append] at hd
    omega
  | k + 1, j + 1 =>
    have hd := congrArg String.data h
    simp only [candSeq, candPath, String.data_append, List.append_assoc] at hd
    have h1 := List.append_cancel_left hd
    have h2 := List.append_cancel_left h1
    have h3 := List.append_cancel_left h2
    have h4 : (decRepr (k + 1)).data = (decRepr (j + 1)).data :=
      List.append_cancel_right h3
    have := decRepr_data_inj _ _ h4
    omega

/-- All archive paths currently taken: prior manifest entries plus pending
entries of the same Add call. -/
def takenPaths (m : Manifest) (pending : List (String × Bytes)) :
    List String :=
  m.files.map FileEntry.path ++ pending.map Prod.fst

theorem occupied_mem (m : Manifest) (pending : List (String × Bytes))
    (p : String) (h : occupied m pending p = true) :
    p ∈ takenPaths m pending := by
  unfold occupied at h
  have h2 : entryExists m p = true ∨ (lookupLast pending p).isSome = true := by
    simpa using h
  rcases h2 with h1 | h1
  · unfold entryExists at h1
    obtain ⟨f, hf, hfp⟩ := List.any_eq_true.mp h1
    exact List.mem_append.mpr (Or.inl
      (List.mem_map.mpr ⟨f, hf, of_decide_eq_true hfp⟩))
  · exact List.mem_append.mpr (Or.inr
      (lookupLast_isSome_mem pending p h1))

theorem exists_free_cand (m : Manifest) (pending : List (String × Bytes))
    (base : String) :
    ∃ j, j < assignFuel m pending ∧
      occupied m pending (candSeq base j) = false := by
  by_contra hcon
  push_neg at hcon
  have hall : ∀ j, j < assignFuel m pending →
      occupied m pending (candSeq base j) = true := by
    intro j hj
    have := hcon j hj
    exact Bool.ne_false_iff.mp this
  have hnd : ((List.range (assignFuel m pending)).map (candSeq base)).Nodup :=
    (List.nodup_range _).map (candSeq_injective base)
  have hsub : ∀ x ∈ (List.range (assignFuel m pending)).map (candSeq base),
      x ∈ takenPaths m pending := by
    intro x hx
    obtain ⟨j, hj, rfl⟩ := List.mem_map.mp hx
    exact occupied_mem m pending _ (hall j (List.mem_range.mp hj))
  have h1 : ((List.range (assignFuel m pending)).map (candSeq base)).toFinset.card =
      assignFuel m pending := by
    rw [List.toFinset_card_of_nodup hnd]
    simp
  have h2 : ((List.range (assignFuel m pending)).map (candSeq base)).toFinset ⊆
      (takenPaths m pending).toFinset := by
    intro x hx
    exact List.mem_toFinset.mpr (hsub x (List.mem_toFinset.mp hx))
  have h3 := Finset.card_le_card h2
  have h4 := (takenPaths m pending).toFinset_card_le
  have h5 : (takenPaths m pending).length =
      m.files.length + pending.length := by
    simp [takenPaths]
  rw [h1] at h3
  unfold assignFuel at h3
  omega

theorem addLoop_first_free (occ : String → Bool) (base : String) :
    ∀ (fuel i : Nat), (∃ j, j < fuel ∧ occ (candSeq base (i + j)) = false) →
      ∃ j, addLoop occ base fuel (candSeq base i) (i + 1) = candSeq base (i + j) ∧
        occ (candSeq base (i + j)) = false ∧
        (∀ j2, j2 < j → occ (candSeq base (i + j2)) = true) := by
  intro fuel
  induction fuel with
  | zero =>
    intro i h
    obtain ⟨j, hj, _⟩ := h
    omega
  | succ fuel ih =>
    intro i h
    unfold addLoop
    cases hocc : occ (candSeq base i) with
    | false =>
      refine ⟨0, ?_, by simpa using hocc, by omega⟩
      rw [if_neg (by simp [hocc])]
      simp
    | true =>
      rw [if_pos (by simp [hocc])]
      obtain ⟨j, hj, hfree⟩ := h
      have hj0 : j ≠ 0 := by
        intro h0
        subst h0
        simp at hfree
        rw [hfree] at hocc
        cases hocc
      obtain ⟨j1, rfl⟩ : ∃ j1, j = j1 + 1 := ⟨j - 1, by omega⟩
      have hnext : ∃ j2, j2 < fuel ∧
          occ (candSeq base ((i + 1) + j2)) = false := by
        refine ⟨j1, by omega, ?_⟩
        have : (i + 1) + j1 = i + (j1 + 1) := by omega
        rw [this]
        exact hfree
      have hcand : candPath base (i + 1) = candSeq base (i + 1) := rfl
      rw [hcand]
      obtain ⟨j2, heq, hfree2, hbefore2⟩ := ih (i + 1) hnext
      refine ⟨j2 + 1, ?_, ?_, ?_⟩
      · have : i + (j2 + 1) = (i + 1) + j2 := by omega
        rw [this]
        exact heq
      · have : i + (j2 + 1) = (i + 1) + j2 := by omega
        rw [this]
        exact hfree2
      · intro j3 hj3
        cases j3 with
        | zero => simpa using hocc
        | succ j4 =>
          have : i + (j4 + 1) = (i + 1) + j4 := by omega
          rw [this]
          exact hbefore2 j4 (by omega)

/-- C7: Add's name disambiguation - the assigned in-archive path is
`files/<basename>` when that is free among prior manifest entries and pending
entries of the same call; on collision it is `files/<stem>_k<ext>` for the
FIRST suffix `k ≥ 1` that is free, every smaller suffix being taken. -/
theorem add_assigns_first_free_path (m : Manifest)
    (pending : List (String × Bytes)) (base : String) :
    occupied m pending (assignPath m pending base) = false ∧
    (occupied m pending (filesDir ++ base) = false →
      assignPath m pending base = filesDir ++ base) ∧
    (occupied m pending (filesDir ++ base) = true →
      ∃ k, 1 ≤ k ∧ assignPath m pending base = candPath base k ∧
        occupied m pending (candPath base k) = false ∧
        ∀ j, 1 ≤ j → j < k → occupied m pending (candPath base j) = true) := by
  have hex : ∃ j, j < assignFuel m pending ∧
      occupied m pending (candSeq base (0 + j)) = false := by
    obtain ⟨j, hj, hf⟩ := exists_free_cand m pending base
    exact ⟨j, hj, by simpa using hf⟩
  have hmain := addLoop_first_free (occupied m pending) base
    (assignFuel m pending) 0 hex
  obtain ⟨j, heq, hfree, hbefore⟩ := hmain
  have hassign : assignPath m pending base = candSeq base j := by
    unfold assignPath
    have h0 : filesDir ++ base = candSeq base 0 := rfl
    rw [h0]
    simpa using heq
  simp only [Nat.zero_add] at hfree hbefore
  refine ⟨by rw [hassign]; exact hfree, ?_, ?_⟩
  · intro hb
    cases j with
    | zero => rw [hassign]; rfl
    | succ j1 =>
      have := hbefore 0 (by omega)
      simp only [candSeq] at this
      rw [this] at hb
      cases hb
  · intro hb
    cases j with
    | zero =>
      simp only [candSeq] at hfree
      rw [hfree] at hb
      cases hb
    | succ j1 =>
      refine ⟨j1 + 1, by omega, by rw [hassign]; rfl, hfree, ?_⟩
      intro j2 hj2a hj2b
      obtain ⟨j3, rfl⟩ : ∃ j3, j2 = j3 + 1 := ⟨j2 - 1, by omega⟩
      have := hbefore (j3 + 1) (by omega)
      simpa [candSeq] using this

/-- The concrete manifest for the C7 witness: `files/doc.pdf` is already a
manifest entry. -/
def m7 : Manifest :=
  { version := 1, state := "open", createdAt := 0, sealedAt := none,
    expiresAt := none, publicKey := "", encryption := none,
    files := [{ path := "files/doc.pdf", originalName := "doc.pdf",
                originalSize := 1, sha256 := "aa", encryptedSHA256 := "" }],
    signature := "" }

/-- C7 witness: with `files/doc.pdf` taken by the manifest and
`files/doc_1.pdf` pending in the same call, a third `doc.pdf` is assigned
`files/doc_2.pdf` - the first free suffix. -/
theorem add_assigns_first_free_path_witness :
    assignPath m7 [("files/doc_1.pdf", [1])] "doc.pdf" = "files/doc_2.pdf" ∧
    ∃ k, 1 ≤ k ∧
      assignPath m7 [("files/doc_1.pdf", [1])] "doc.pdf" = candPath "doc.pdf" k ∧
      occupied m7 [("files/doc_1.pdf", [1])] (candPath "doc.pdf" k) = false ∧
      ∀ j, 1 ≤ j → j < k →
        occupied m7 [("files/doc_1.pdf", [1])] (candPath "doc.pdf" j) = true := by
  refine ⟨by decide, ?_⟩
  exact (add_assigns_first_free_path m7 [("files/doc_1.pdf", [1])] "doc.pdf").2.2
    (by decide)

theorem lookupLast_of_nodup (l : List (String × Bytes))
    (h : (l.map Prod.fst).Nodup) (k : String) (v : Bytes)
    (hm : (k, v) ∈ l) : lookupLast l k = some v := by
  induction l using List.reverseRecOn with
  | nil => cases hm
  | append_singleton t p ih =>
    rcases List.mem_append.mp hm with hm1 | hm1
    · have hnd : (t.map Prod.fst).Nodup := by
        rw [List.map_append] at h
        exact (List.nodup_append.mp h).1
      have hp1 : p.1 ∉ t.map Prod.fst := by
        rw [List.map_append] at h
        have hdisj := (List.nodup_append.mp h).2.2
        intro hmem
        exact hdisj hmem (by simp)
      have hk : k ∈ t.map Prod.fst := List.mem_map.mpr ⟨(k, v), hm1, rfl⟩
      have hne : p.1 ≠ k := fun hcon => hp1 (hcon ▸ hk)
      rw [lookupLast_append_ne t k p.1 p.2 hne]
      exact ih hnd hm1
    · have hp : p = (k, v) := by
        have := hm1
        simp at this
        exact this.symm
      subst hp
      exact lookupLast_append_self t k v

theorem lookupLast_isSome_of_mem (l : List (String × Bytes)) (k : String)
    (h : k ∈ l.map Prod.fst) : (lookupLast l k).isSome = true := by
  induction l using List.reverseRecOn with
  | nil => simp at h
  | append_singleton t p ih =>
    by_cases hk : p.1 = k
    · rw [← hk, lookupLast_append_self]
      rfl
    · rw [lookupLast_append_ne t k p.1 p.2 hk]
      apply ih
      rw [List.map_append] at h
      rcases List.mem_append.mp h with h1 | h1
      · exact h1
      · simp at h1
        exact absurd h1.symm hk

theorem occupied_false_not_mem_manifest (m : Manifest)
    (pending : List (String × Bytes)) (p : String)
    (h : occupied m pending p = false) : p ∉ m.files.map FileEntry.path := by
  intro hmem
  unfold occupied at h
  have h1 : entryExists m p = false := by
    cases he : entryExists m p
    · rfl
    · rw [he] at h; simp at h
  unfold entryExists at h1
  obtain ⟨f, hf, hfp⟩ := List.mem_map.mp hmem
  have := List.any_eq_false.mp h1 f hf
  simp [hfp] at this

theorem occupied_false_not_mem_pending (m : Manifest)
    (pending : List (String × Bytes)) (p : String)
    (h : occupied m pending p = false) : p ∉ pending.map Prod.fst := by
  intro hmem
  unfold occupied at h
  have h1 : (lookupLast pending p).isSome = false := by
    cases hs : (lookupLast pending p).isSome
    · rfl
    · rw [hs] at h; simp at h
  rw [lookupLast_isSome_of_mem pending p hmem] at h1
  cases h1

theorem string_append_right_cancel (s t u : String) (h : s ++ u = t ++ u) :
    s = t := by
  apply string_data_inj
  have hd := congrArg String.data h
  rw [String.data_append, String.data_append] at hd
  exact List.append_cancel_right hd

/-- Whether a path textually ends in `".enc"`. -/
def hasSuffixEnc (s : String) : Bool :=
  decide (s.data.reverse.take 4 = ['c', 'n', 'e', '.'])

theorem hasSuffixEnc_append (s : String) :
    hasSuffixEnc (s ++ ".enc") = true := by
  unfold hasSuffixEnc
  have hd : (s ++ ".enc").data.reverse =
      ['c', 'n', 'e', '.'] ++ s.data.reverse := by
    rw [String.data_append]
    show (s.data ++ ['.', 'e', 'n', 'c']).reverse = _
    rw [List.reverse_append]
    rfl
  rw [hd]
  simp

theorem enc_path_ne_marker (s : String) : s ++ ".enc" ≠ sealedMarker := by
  intro h
  have := congrArg hasSuffixEnc h
  rw [hasSuffixEnc_append] at this
  have hm : hasSuffixEnc sealedMarker = false := by decide
  rw [hm] at this
  cases this

theorem enc_path_ne_pubkey (s : String) : s ++ ".enc" ≠ pubKeyPath := by
  intro h
  have := congrArg hasSuffixEnc h
  rw [hasSuffixEnc_append] at this
  have hm : hasSuffixEnc pubKeyPath = false := by decide
  rw [hm] at this
  cases this

theorem enc_path_ne_manifest (s : String) : s ++ ".enc" ≠ manifestPath := by
  intro h
  have := congrArg hasSuffixEnc h
  rw [hasSuffixEnc_append] at this
  have hm : hasSuffixEnc manifestPath = false := by decide
  rw [hm] at this
  cases this

theorem filesDir_append_ne_marker (r : String) :
    filesDir ++ r ≠ sealedMarker := by
  intro h
  have hd := congrArg String.data h
  rw [String.data_append] at hd
  have : ('f' :: (['i', 'l', 'e', 's', '/'] ++ r.data)) =
      ['.', 's', 'e', 'a', 'l', 'e', 'd'] := hd
  cases this

theorem filesDir_append_ne_pubkey (r : String) :
    filesDir ++ r ≠ pubKeyPath := by
  intro h
  have hd := congrArg String.data h
  rw [String.data_append] at hd
  have : ('f' :: (['i', 'l', 'e', 's', '/'] ++ r.data)) =
      ['k', 'e', 'y', 'r', 'i', 'n', 'g', '/', 'p', 'u', 'b', 'l', 'i', 'c',
       '.', 'k', 'e', 'y'] := hd
  cases this

theorem filesDir_append_ne_manifest (r : String) :
    filesDir ++ r ≠ manifestPath := by
  intro h
  have hd := congrArg String.data h
  rw [String.data_append] at hd
  have : ('f' :: (['i', 'l', 'e', 's', '/'] ++ r.data)) =
      ['m', 'a', 'n', 'i', 'f', 'e', 's', 't', '.', 'j', 's', 'o', 'n'] := hd
  cases this

theorem append_enc_inj (s t : String) (h : s ++ ".enc" = t ++ ".enc") :
    s = t :=
  string_append_right_cancel s t ".enc" h

/-- The path every Add-assigned entry gets starts with `files/`. -/
theorem assignPath_filesDir (m : Manifest) (pending : List (String × Bytes))
    (base : String) : ∃ r, assignPath m pending base = filesDir ++ r := by
  obtain ⟨_, h2, h3⟩ := add_assigns_first_free_path m pending base
  cases hocc : occupied m pending (filesDir ++ base) with
  | false => exact ⟨base, h2 hocc⟩
  | true =>
    obtain ⟨k, _, heq, _, _⟩ := h3 hocc
    refine ⟨(splitExt base).1 ++ "_" ++ decRepr k ++ (splitExt base).2, ?_⟩
    rw [heq]
    unfold candPath
    apply string_data_inj
    simp [String.data_append]

/-- What Add records for one input file: the entry carries the base name,
plaintext size, plaintext hash, empty encrypted hash and a `files/`-prefixed
path, and the pending member stores the plaintext under that path. -/
def AddRel (P : Prims) (inp : String × Bytes)
    (fepr : FileEntry × (String × Bytes)) : Prop :=
  fepr.1.originalName = baseName inp.1 ∧
  fepr.1.originalSize = (inp.2.length : Int) ∧
  fepr.1.sha256 = hexEncode (P.hash inp.2) ∧
  fepr.1.encryptedSHA256 = "" ∧
  (∃ r, fepr.1.path = filesDir ++ r) ∧
  fepr.2 = (fepr.1.path, inp.2)

theorem addFilesAux_ok (P : Prims) :
    ∀ (inputs : List (String × Bytes)) (m : Manifest)
      (pending : List (String × Bytes)) (m2 : Manifest)
      (newEntries : List (String × Bytes)),
      addFilesAux P inputs m pending = .ok (m2, newEntries) →
      ∃ (fes : List FileEntry) (prs : List (String × Bytes)),
        m2 = { m with files := m.files ++ fes } ∧
        newEntries = pending ++ prs ∧
        fes.length = inputs.length ∧
        prs.length = inputs.length ∧
        List.Forall₂ (AddRel P) inputs (fes.zip prs) ∧
        ((m.files.map FileEntry.path).Nodup →
          ((m.files ++ fes).map FileEntry.path).Nodup) ∧
        ((pending.map Prod.fst).Nodup →
          ((pending ++ prs).map Prod.fst).Nodup) := by
  intro inputs
  induction inputs with
  | nil =>
    intro m pending m2 newEntries h
    unfold addFilesAux at h
    injection h with h1
    injection h1 with h2 h3
    refine ⟨[], [], ?_, ?_, rfl, rfl, List.Forall₂.nil, ?_, ?_⟩
    · rw [← h2]; simp
    · rw [← h3]; simp
    · intro hnd; simpa using hnd
    · intro hnd; simpa using hnd
  | cons inp rest ih =>
    intro m pending m2 newEntries h
    obtain ⟨fp, data⟩ := inp
    unfold addFilesAux at h
    simp only [] at h
    set base := baseName fp with hbase
    set zipPath := assignPath m pending base with hzip
    set entry : FileEntry :=
      { path := zipPath, originalName := base, originalSize := data.length,
        sha256 := hexEncode (P.hash data), encryptedSHA256 := "" } with hentry
    have hocc : occupied m pending zipPath = false :=
      (add_assigns_first_free_path m pending base).1
    have hAF : m.AddFile entry = .ok { m with files := m.files ++ [entry] } ∨
        ∃ e, m.AddFile entry = .error e := by
      unfold Manifest.AddFile
      by_cases hs : m.state = "sealed"
      · exact Or.inr ⟨_, by rw [if_pos hs]⟩
      · rw [if_neg hs]
        by_cases hdup : m.files.any (fun f => f.path = entry.path) = true
        · exact Or.inr ⟨_, by rw [if_pos hdup]⟩
        · exact Or.inl (by rw [if_neg hdup])
    rcases hAF with hAF | ⟨e, hAF⟩
    · rw [hAF] at h
      simp only [] at h
      obtain ⟨fes1, prs1, hm2, hnew, hlen1, hlen2, hF, hndM, hndP⟩ :=
        ih { m with files := m.files ++ [entry] }
          (pending ++ [(zipPath, data)]) m2 newEntries h
      refine ⟨entry :: fes1, (zipPath, data) :: prs1, ?_, ?_, by simp [hlen1],
        by simp [hlen2], ?_, ?_, ?_⟩
      · rw [hm2]; simp
      · rw [hnew]; simp
      · refine List.Forall₂.cons ?_ hF
        refine ⟨rfl, rfl, rfl, rfl, ?_, rfl⟩
        exact assignPath_filesDir m pending base
      · intro hnd
        have hmid : ((m.files ++ [entry]).map FileEntry.path).Nodup := by
          rw [List.map_append]
          rw [List.nodup_append]
          refine ⟨hnd, by simp, ?_⟩
          intro x hx hx1
          simp at hx1
          subst hx1
          exact occupied_false_not_mem_manifest m pending zipPath hocc hx
        have := hndM hmid
        simpa using this
      · intro hnd
        have hmid : (((pending ++ [(zipPath, data)])).map Prod.fst).Nodup := by
          rw [List.map_append]
          rw [List.nodup_append]
          refine ⟨hnd, by simp, ?_⟩
          intro x hx hx1
          simp at hx1
          subst hx1
          exact occupied_false_not_mem_pending m pending zipPath hocc hx
        have := hndP hmid
        simpa using this
    · rw [hAF] at h
      simp only [] at h
      cases h

/-- The facts established by a successful `Add` call: the container was open,
the manifest gained one entry per input in order (with the recorded name,
size, hash and a fresh `files/` path), the archive gained the corresponding
plaintext members, and path uniqueness is preserved. -/
theorem Add_ok (P : Prims) (a : Archive) (inputs : List (String × Bytes))
    (a1 : Archive) (h : Add P a inputs = .ok a1) :
    a.manifest.IsSealed = false ∧
    ∃ (fes : List FileEntry) (prs : List (String × Bytes)),
      a1.manifest = { a.manifest with files := a.manifest.files ++ fes } ∧
      a1.entries = readZipEntries a [manifestPath] ++ prs ∧
      fes.length = inputs.length ∧
      prs.length = inputs.length ∧
      List.Forall₂ (AddRel P) inputs (fes.zip prs) ∧
      ((a.manifest.files.map FileEntry.path).Nodup →
        ((a.manifest.files ++ fes).map FileEntry.path).Nodup) ∧
      (prs.map Prod.fst).Nodup := by
  unfold Add at h
  cases hs : a.manifest.IsSealed with
  | true => rw [hs] at h; simp at h
  | false =>
    rw [hs] at h
    simp only [Bool.false_eq_true, if_false] at h
    cases haux : addFilesAux P inputs a.manifest [] with
    | error e => rw [haux] at h; cases h
    | ok pr =>
      obtain ⟨m2, newEntries⟩ := pr
      rw [haux] at h
      simp only [] at h
      injection h with h1
      obtain ⟨fes, prs, hm2, hnew, hlen1, hlen2, hF, hndM, hndP⟩ :=
        addFilesAux_ok P inputs a.manifest [] m2 newEntries haux
      refine ⟨rfl, fes, prs, ?_, ?_, hlen1, hlen2, hF, hndM, ?_⟩
      · rw [← h1]
        unfold rewriteContainer
        rw [hm2]
      · rw [← h1]
        unfold rewriteContainer
        rw [hnew]
        simp
      · have := hndP (by simp)
        simpa using this

/-- What Seal's encryption loop does to one file entry: the path gains the
`.enc` suffix, name/size/plaintext-hash survive, and the processed member at
the new path is the AEAD wire format of the plaintext found in the archive,
whose hash is recorded in `encrypted_sha256`. -/
def EncRel (P : Prims) (encKey : Bytes) (nonces : Nat → Bytes)
    (existing : List (String × Bytes)) (fe : FileEntry)
    (fepr : FileEntry × (String × Bytes)) : Prop :=
  fepr.1.originalName = fe.originalName ∧
  fepr.1.originalSize = fe.originalSize ∧
  fepr.1.sha256 = fe.sha256 ∧
  fepr.1.path = fe.path ++ ".enc" ∧
  ∃ pt j, lookupLast existing fe.path = some pt ∧
    fepr.2 = (fe.path ++ ".enc", EncryptC P encKey (nonces j) pt) ∧
    fepr.1.encryptedSHA256 = hexEncode (P.hash (EncryptC P encKey (nonces j) pt))

theorem encryptFiles_ok (P : Prims) (encKey : Bytes) (nonces : Nat → Bytes)
    (existing : List (String × Bytes)) :
    ∀ (fes : List FileEntry) (i : Nat) (fes2 : List FileEntry)
      (procs : List (String × Bytes)),
      encryptFiles P encKey nonces existing fes i = .ok (fes2, procs) →
      fes2.length = fes.length ∧ procs.length = fes.length ∧
      procs.map Prod.fst = fes.map (fun fe => fe.path ++ ".enc") ∧
      fes2.map FileEntry.path = fes.map (fun fe => fe.path ++ ".enc") ∧
      List.Forall₂ (EncRel P encKey nonces existing) fes (fes2.zip procs) := by
  intro fes
  induction fes with
  | nil =>
    intro i fes2 procs h
    unfold encryptFiles at h
    injection h with h1
    injection h1 with h2 h3
    subst h2
    subst h3
    exact ⟨rfl, rfl, rfl, rfl, List.Forall₂.nil⟩
  | cons fe rest ih =>
    intro i fes2 procs h
    unfold encryptFiles at h
    cases hl : lookupLast existing fe.path with
    | none => rw [hl] at h; cases h
    | some pt =>
      rw [hl] at h
      simp only [] at h
      cases hrec : encryptFiles P encKey nonces existing rest (i + 1) with
      | error e => rw [hrec] at h; cases h
      | ok pr =>
        obtain ⟨fes1, procs1⟩ := pr
        rw [hrec] at h
        simp only [] at h
        injection h with h1
        injection h1 with h2 h3
        subst h2
        subst h3
        obtain ⟨hl1, hl2, hk1, hk2, hF⟩ := ih (i + 1) fes1 procs1 hrec
        refine ⟨by simp [hl1], by simp [hl2], by simp [hk1], by simp [hk2], ?_⟩
        refine List.Forall₂.cons ?_ hF
        exact ⟨rfl, rfl, rfl, rfl, pt, i, hl, rfl, rfl⟩

/-- The facts established by a successful `Seal` with an empty passphrase:
no encryption phase ran - the files and members are carried over unchanged,
expiry and key embedding are applied as requested, the state becomes sealed
and only the optional key member plus the `.sealed` marker are added. -/
theorem sealFinish_ok (P : Prims) (opts : SealOptions) (now : Int)
    (m1 : Manifest) (processed : List (String × Bytes)) (a2 : Archive)
    (h : sealFinish P opts now m1 processed = .ok a2) :
    a2.manifest.state = "sealed" ∧
    a2.manifest.sealedAt = some now ∧
    a2.manifest.files = m1.files ∧
    a2.manifest.encryption = m1.encryption ∧
    a2.manifest.expiresAt = (match opts.expiresAt with
      | some t => some t
      | none => m1.expiresAt) ∧
    a2.entries = processed ++
      (if opts.embedPubKey then
        [(pubKeyPath, P.pemPub (P.pubOf opts.privateKey))] else []) ++
      [(sealedMarker, strBytes "sealed")] := by
  unfold sealFinish at h
  cases hexp : opts.expiresAt with
  | none =>
    rw [hexp] at h
    simp only [] at h
    cases hemb : opts.embedPubKey with
    | false =>
      rw [hemb] at h
      simp only [Bool.false_eq_true, if_false] at h
      cases hseal : (m1.Seal now) with
      | error e => rw [hseal] at h; cases h
      | ok m4 =>
        rw [hseal] at h
        simp only [] at h
        unfold Manifest.Seal at hseal
        by_cases hst : m1.state = "sealed"
        · rw [if_pos hst] at hseal; cases hseal
        · rw [if_neg hst] at hseal
          by_cases hfl : m1.files.length = 0
          · rw [if_pos hfl] at hseal; cases hseal
          · rw [if_neg hfl] at hseal
            injection hseal with hm4
            injection h with ha2
            rw [← ha2, ← hm4]
            exact ⟨rfl, rfl, rfl, rfl, rfl, by simp⟩
    | true =>
      rw [hemb] at h
      simp only [if_true] at h
      set mE : Manifest := { m1 with publicKey := P.b64encode (P.pubOf opts.privateKey) } with hmE
      cases hseal : (mE.Seal now) with
      | error e => rw [hseal] at h; cases h
      | ok m4 =>
        rw [hseal] at h
        simp only [] at h
        unfold Manifest.Seal at hseal
        by_cases hst : m1.state = "sealed"
        · rw [if_pos hst] at hseal; cases hseal
        · rw [if_neg hst] at hseal
          by_cases hfl : m1.files.length = 0
          · rw [if_pos hfl] at hseal; cases hseal
          · rw [if_neg hfl] at hseal
            injection hseal with hm4
            injection h with ha2
            rw [← ha2, ← hm4]
            exact ⟨rfl, rfl, rfl, rfl, rfl, by simp⟩
  | some t =>
    rw [hexp] at h
    simp only [] at h
    cases hemb : opts.embedPubKey with
    | false =>
      rw [hemb] at h
      simp only [Bool.false_eq_true, if_false] at h
      set mE : Manifest := { m1 with expiresAt := some t } with hmE
      cases hseal : (mE.Seal now) with
      | error e => rw [hseal] at h; cases h
      | ok m4 =>
        rw [hseal] at h
        simp only [] at h
        unfold Manifest.Seal at hseal
        by_cases hst : m1.state = "sealed"
        · rw [if_pos hst] at hseal; cases hseal
        · rw [if_neg hst] at hseal
          by_cases hfl : m1.files.length = 0
          · rw [if_pos hfl] at hseal; cases hseal
          · rw [if_neg hfl] at hseal
            injection hseal with hm4
            injection h with ha2
            rw [← ha2, ← hm4]
            exact ⟨rfl, rfl, rfl, rfl, rfl, by simp⟩
    | true =>
      rw [hemb] at h
      simp only [if_true] at h
      set mE : Manifest := { m1 with expiresAt := some t, publicKey := P.b64encode (P.pubOf opts.privateKey) } with hmE
      cases hseal : (mE.Seal now) with
      | error e => rw [hseal] at h; cases h
      | ok m4 =>
        rw [hseal] at h
        simp only [] at h
        unfold Manifest.Seal at hseal
        by_cases hst : m1.state = "sealed"
        · rw [if_pos hst] at hseal; cases hseal
        · rw [if_neg hst] at hseal
          by_cases hfl : m1.files.length = 0
          · rw [if_pos hfl] at hseal; cases hseal
          · rw [if_neg hfl] at hseal
            injection hseal with hm4
            injection h with ha2
            rw [← ha2, ← hm4]
            exact ⟨rfl, rfl, rfl, rfl, rfl, by simp⟩

/-- The facts established by a successful `Seal` with an empty passphrase:
no encryption phase ran - files and members are carried over unchanged,
expiry and key embedding applied as requested, the state becomes sealed, and
only the optional key member and the `.sealed` marker are added. -/
theorem Seal_ok_plain (P : Prims) (a : Archive) (opts : SealOptions)
    (now : Int) (salt : Bytes) (nonces : Nat → Bytes) (a2 : Archive)
    (h : Seal P a opts now salt nonces = .ok a2)
    (hp : opts.passphrase = "") :
    a2.manifest.state = "sealed" ∧
    a2.manifest.sealedAt = some now ∧
    a2.manifest.files = a.manifest.files ∧
    a2.manifest.encryption = a.manifest.encryption ∧
    a2.manifest.expiresAt = (match opts.expiresAt with
      | some t => some t
      | none => a.manifest.expiresAt) ∧
    a2.entries = readZipEntries a [manifestPath] ++
      (if opts.embedPubKey then
        [(pubKeyPath, P.pemPub (P.pubOf opts.privateKey))] else []) ++
      [(sealedMarker, strBytes "sealed")] := by
  unfold Seal at h
  cases hs : a.manifest.IsSealed with
  | true => rw [hs] at h; cases h
  | false =>
    rw [hs] at h
    simp only [Bool.false_eq_true, if_false] at h
    rw [hp] at h
    simp only [ne_eq, not_true_eq_false, if_false] at h
    exact sealFinish_ok P opts now a.manifest _ a2 h

/-- The facts established by a successful `Seal` with a non-empty
passphrase: the encryption loop ran over all files with the key derived from
the fresh salt, the manifest records the encryption metadata (hard-coded
600000 iterations), the files are the `.enc`-renamed entries and the stored
members are the ciphertexts, plus the optional key member and the marker. -/
theorem Seal_ok_enc (P : Prims) (a : Archive) (opts : SealOptions)
    (now : Int) (salt : Bytes) (nonces : Nat → Bytes) (a2 : Archive)
    (h : Seal P a opts now salt nonces = .ok a2)
    (hp : opts.passphrase ≠ "") :
    ∃ (fes2 : List FileEntry) (procs : List (String × Bytes)),
      encryptFiles P (DeriveKey P opts.passphrase salt) nonces
        (readZipEntries a [manifestPath]) a.manifest.files 0 =
        .ok (fes2, procs) ∧
      a2.manifest.state = "sealed" ∧
      a2.manifest.sealedAt = some now ∧
      a2.manifest.files = fes2 ∧
      a2.manifest.encryption = some
        { algorithm := "AES-256-GCM", kdf := "PBKDF2-HMAC-SHA256",
          salt := P.b64encode salt,
          iterations := (PBKDF2Iterations : Int) } ∧
      a2.manifest.expiresAt = (match opts.expiresAt with
        | some t => some t
        | none => a.manifest.expiresAt) ∧
      a2.entries = procs ++
        (if opts.embedPubKey then
          [(pubKeyPath, P.pemPub (P.pubOf opts.privateKey))] else []) ++
        [(sealedMarker, strBytes "sealed")] := by
  unfold Seal at h
  cases hs : a.manifest.IsSealed with
  | true => rw [hs] at h; cases h
  | false =>
    rw [hs] at h
    simp only [Bool.false_eq_true, if_false] at h
    rw [if_pos hp] at h
    cases henc : encryptFiles P (DeriveKey P opts.passphrase salt) nonces
        (readZipEntries a [manifestPath]) a.manifest.files 0 with
    | error e => rw [henc] at h; cases h
    | ok pr =>
      obtain ⟨fes2, procs⟩ := pr
      rw [henc] at h
      simp only [] at h
      have := sealFinish_ok P opts now _ procs a2 h
      exact ⟨fes2, procs, rfl, this.1, this.2.1, this.2.2.1, this.2.2.2.1,
        this.2.2.2.2.1, this.2.2.2.2.2⟩

theorem DecryptC_EncryptC (P : Prims) (key nonce pt : Bytes)
    (hAEAD : P.aeadOpen key nonce (P.aeadSeal key nonce pt) = some pt)
    (hLen : nonce.length = 12) :
    DecryptC P key (EncryptC P key nonce pt) = .ok pt := by
  unfold DecryptC EncryptC NonceSize
  have htake : (nonce ++ P.aeadSeal key nonce pt).take 12 = nonce :=
    List.take_left' hLen
  have hdrop : (nonce ++ P.aeadSeal key nonce pt).drop 12 =
      P.aeadSeal key nonce pt := List.drop_left' hLen
  have hlen : ¬ (nonce ++ P.aeadSeal key nonce pt).length < 12 := by
    rw [List.length_append, hLen]
    omega
  rw [if_neg hlen, htake, hdrop, hAEAD]

/-- What the Extract loop needs of each output entry relative to the
original input file: the recorded name and plaintext hash, and a stored
member that decrypts (or copies) back to the input bytes. -/
def ExtRel (P : Prims) (decKey : Option Bytes)
    (entries : List (String × Bytes)) (inp : String × Bytes)
    (fe : FileEntry) : Prop :=
  fe.originalName = baseName inp.1 ∧
  fe.sha256 = hexEncode (P.hash inp.2) ∧
  ∃ ct, lookupLast entries fe.path = some ct ∧
    (match decKey with
     | some k => DecryptC P k ct
     | none => Except.ok ct) = .ok inp.2

theorem extractLoop_ok (P : Prims) (decKey : Option Bytes)
    (entries : List (String × Bytes)) :
    ∀ (inputs : List (String × Bytes)) (fes : List FileEntry),
      List.Forall₂ (ExtRel P decKey entries) inputs fes →
      extractLoop P decKey entries fes =
        .ok (inputs.map (fun inp => (baseName inp.1, inp.2))) := by
  intro inputs fes hF
  induction hF with
  | nil => rfl
  | @cons inp fe rest fes1 hr hrest ih =>
    obtain ⟨hname, hsha, ct, hlook, hdec⟩ := hr
    unfold extractLoop
    rw [hlook]
    simp only []
    rw [hdec]
    simp only []
    rw [if_neg (by rw [hsha]; simp)]
    rw [ih]
    simp only [List.map_cons]
    rw [hname]

theorem forall2_trans {α β γ : Type} {R : α → β → Prop} {S : β → γ → Prop}
    {T : α → γ → Prop} (h : ∀ a b c, R a b → S b c → T a c) :
    ∀ {xs : List α} {ys : List β} {zs : List γ},
      List.Forall₂ R xs ys → List.Forall₂ S ys zs → List.Forall₂ T xs zs := by
  intro xs ys zs h1
  induction h1 generalizing zs with
  | nil =>
    intro h2
    cases h2
    exact .nil
  | cons hr hrest ih =>
    intro h2
    cases h2 with
    | cons hs hsrest => exact .cons (h _ _ _ hr hs) (ih hsrest)

theorem addrel_lookup (P : Prims) (inputs : List (String × Bytes))
    (fes : List FileEntry) (prs : List (String × Bytes))
    (hF : List.Forall₂ (AddRel P) inputs (fes.zip prs))
    (hl1 : fes.length = inputs.length) (hl2 : prs.length = inputs.length)
    (hnd : (prs.map Prod.fst).Nodup) :
    List.Forall₂ (fun inp fe => fe.originalName = baseName inp.1 ∧
      fe.originalSize = (inp.2.length : Int) ∧
      fe.sha256 = hexEncode (P.hash inp.2) ∧
      fe.encryptedSHA256 = "" ∧ (∃ r, fe.path = filesDir ++ r) ∧
      lookupLast prs fe.path = some inp.2) inputs fes := by
  have hzlen : (fes.zip prs).length = inputs.length := by
    rw [List.length_zip, hl1, hl2]
    simp
  apply List.forall₂_of_length_eq_of_get (by omega)
  intro i h1 h2
  have hz : i < (fes.zip prs).length := by omega
  have hp3 : i < prs.length := by omega
  have hrel := hF.get h1 hz
  have hzi : (fes.zip prs).get ⟨i, hz⟩ =
      (fes.get ⟨i, h2⟩, prs.get ⟨i, hp3⟩) := by
    simp [List.getElem_zip]
  rw [hzi] at hrel
  obtain ⟨hn, hsz, hsha, henc, hpref, hpr⟩ := hrel
  simp only [] at hn hsz hsha henc hpref hpr
  refine ⟨hn, hsz, hsha, henc, hpref, ?_⟩
  have hmem := List.get_mem prs i hp3
  rw [hpr] at hmem
  exact lookupLast_of_nodup prs hnd _ _ hmem

theorem encrel_lookup (P : Prims) (encKey : Bytes) (nonces : Nat → Bytes)
    (existing : List (String × Bytes)) (fes fes2 : List FileEntry)
    (procs : List (String × Bytes))
    (hF : List.Forall₂ (EncRel P encKey nonces existing) fes (fes2.zip procs))
    (hl1 : fes2.length = fes.length) (hl2 : procs.length = fes.length)
    (hnd : (procs.map Prod.fst).Nodup) :
    List.Forall₂ (fun fe fe2 => fe2.originalName = fe.originalName ∧
      fe2.originalSize = fe.originalSize ∧
      fe2.sha256 = fe.sha256 ∧
      fe2.path = fe.path ++ ".enc" ∧
      ∃ pt j, lookupLast existing fe.path = some pt ∧
        lookupLast procs fe2.path =
          some (EncryptC P encKey (nonces j) pt) ∧
        fe2.encryptedSHA256 =
          hexEncode (P.hash (EncryptC P encKey (nonces j) pt))) fes fes2 := by
  have hzlen : (fes2.zip procs).length = fes.length := by
    rw [List.length_zip, hl1, hl2]
    simp
  apply List.forall₂_of_length_eq_of_get (by omega)
  intro i h1 h2
  have hz : i < (fes2.zip procs).length := by omega
  have hp3 : i < procs.length := by omega
  have hrel := hF.get h1 hz
  have hzi : (fes2.zip procs).get ⟨i, hz⟩ =
      (fes2.get ⟨i, h2⟩, procs.get ⟨i, hp3⟩) := by
    simp [List.getElem_zip]
  rw [hzi] at hrel
  obtain ⟨hn, hsz, hsha, hpath, pt, j, hlook, hpr, hhash⟩ := hrel
  simp only [] at hn hsz hsha hpath hpr hhash
  refine ⟨hn, hsz, hsha, hpath, pt, j, hlook, ?_, hhash⟩
  have hmem := List.get_mem procs i hp3
  rw [hpr] at hmem
  rw [hpath]
  exact lookupLast_of_nodup procs hnd _ _ hmem

theorem contains3_false (k a b c : String) (h1 : k ≠ a) (h2 : k ≠ b)
    (h3 : k ≠ c) : (([a, b, c] : List String).contains k) = false := by
  simp [List.contains, h1, h2, h3]

theorem filter_excl_eq_self (l : List (String × Bytes)) (excl : List String)
    (h : ∀ q ∈ l, excl.contains q.1 = false) :
    l.filter (fun p => ¬ excl.contains p.1) = l := by
  apply List.filter_eq_self.mpr
  intro q hq
  simpa using h q hq

theorem append_enc_injective : Function.Injective (fun s => s ++ ".enc") :=
  fun x y h => append_enc_inj x y h

/-- C8: encryption invariants after Seal.  Starting from an open container
whose manifest has no encryption structure, no recorded ciphertext hashes
and no `.enc`-suffixed paths (the state Create and Add produce), a Seal with
an empty passphrase leaves all three facts intact, while a Seal with a
non-empty passphrase records the encryption structure, renames every entry
path to its prior value with `.enc` appended, and gives every entry a
non-empty `encrypted_sha256` equal to the hex hash of the stored ciphertext
member. -/
theorem seal_encryption_invariants (P : Prims) (a : Archive)
    (opts : SealOptions) (now : Int) (salt : Bytes) (nonces : Nat → Bytes)
    (a2 : Archive)
    (hok : Seal P a opts now salt nonces = .ok a2)
    (hEnc : a.manifest.encryption = none)
    (hPre : ∀ fe ∈ a.manifest.files,
      fe.encryptedSHA256 = "" ∧ hasSuffixEnc fe.path = false)
    (hNodup : (a.manifest.files.map FileEntry.path).Nodup)
    (hHash : ∀ d, P.hash d ≠ []) :
    (opts.passphrase = "" →
      a2.manifest.encryption = none ∧
      ∀ fe ∈ a2.manifest.files,
        fe.encryptedSHA256 = "" ∧ hasSuffixEnc fe.path = false) ∧
    (opts.passphrase ≠ "" →
      (∃ e, a2.manifest.encryption = some e) ∧
      List.Forall₂ (fun fe0 fe2 => fe2.path = fe0.path ++ ".enc")
        a.manifest.files a2.manifest.files ∧
      ∀ fe ∈ a2.manifest.files,
        fe.encryptedSHA256 ≠ "" ∧ hasSuffixEnc fe.path = true ∧
        ∃ ct, lookupLast a2.entries fe.path = some ct ∧
          fe.encryptedSHA256 = hexEncode (P.hash ct)) := by
  constructor
  · intro hp
    obtain ⟨_, _, hfiles, henc2, _, _⟩ :=
      Seal_ok_plain P a opts now salt nonces a2 hok hp
    rw [hfiles, henc2, hEnc]
    exact ⟨rfl, hPre⟩
  · intro hp
    obtain ⟨fes2, procs, henc, _, _, hfiles, hencm, _, hentries⟩ :=
      Seal_ok_enc P a opts now salt nonces a2 hok hp
    obtain ⟨hl1, hl2, hkeys, _, hF⟩ := encryptFiles_ok P _ nonces _ _ 0
      fes2 procs henc
    have hndProcs : (procs.map Prod.fst).Nodup := by
      rw [hkeys]
      have h1 : a.manifest.files.map (fun fe => fe.path ++ ".enc") =
          (a.manifest.files.map FileEntry.path).map (fun s => s ++ ".enc") := by
        rw [List.map_map]
        rfl
      rw [h1]
      exact hNodup.map append_enc_injective
    have hrelF := encrel_lookup P _ nonces _ _ fes2 procs hF hl1 hl2 hndProcs
    refine ⟨⟨_, hencm⟩, ?_, ?_⟩
    · rw [hfiles]
      exact hrelF.imp (fun fe0 fe2 h => h.2.2.2.1)
    · intro fe2 hmem
      rw [hfiles] at hmem
      obtain ⟨n, hn⟩ := List.mem_iff_get.mp hmem
      have hlen : (n : Nat) < a.manifest.files.length := by
        have := hrelF.length_eq
        omega
      have hrel := hrelF.get hlen n.isLt
      rw [show fes2.get ⟨(n : Nat), n.isLt⟩ = fe2 from hn] at hrel
      obtain ⟨_, _, _, hpath, pt, j, _, hlook, hhash⟩ := hrel
      refine ⟨?_, ?_, EncryptC P (DeriveKey P opts.passphrase salt)
        (nonces j) pt, ?_, hhash⟩
      · rw [hhash]
        exact hexEncode_ne_empty _ (hHash _)
      · rw [hpath]
        exact hasSuffixEnc_append _
      · rw [hentries]
        have hne1 : sealedMarker ≠ fe2.path := by
          rw [hpath]
          exact fun hcon => enc_path_ne_marker _ hcon.symm
        rw [lookupLast_append_ne _ fe2.path sealedMarker _ hne1]
        cases hemb : opts.embedPubKey with
        | false =>
          simp only [Bool.false_eq_true, if_false, List.append_nil]
          exact hlook
        | true =>
          simp only [if_true]
          have hne2 : pubKeyPath ≠ fe2.path := by
            rw [hpath]
            exact fun hcon => enc_path_ne_pubkey _ hcon.symm
          rw [lookupLast_append_ne _ fe2.path pubKeyPath _ hne2]
          exact hlook

/-- The single file entry used by the C8 witness. -/
def feX : FileEntry :=
  { path := "files/x", originalName := "x", originalSize := 1,
    sha256 := "aa", encryptedSHA256 := "" }

/-- The concrete open archive sealed in the C8 witness. -/
def a8 : Archive :=
  { manifest :=
      { version := 1, state := "open", createdAt := 0, sealedAt := none,
        expiresAt := none, publicKey := "", encryption := none,
        files := [feX], signature := "" },
    entries := [("files/x", [1])] }

/-- What sealing `a8` without a passphrase produces. -/
def a8sealed : Archive :=
  { manifest :=
      { version := 1, state := "sealed", createdAt := 0, sealedAt := some 5,
        expiresAt := none, publicKey := "", encryption := none,
        files := [feX], signature := "b64" },
    entries := [("files/x", [1]),
                (".sealed", [115, 101, 97, 108, 101, 100])] }

/-- C8 witness: sealing the concrete open archive with an empty passphrase
concretely yields a manifest with no encryption structure, empty
`encrypted_sha256` fields and no `.enc` paths. -/
theorem seal_encryption_invariants_witness :
    Seal P0 a8 opts0 5 [] (fun _ => []) = .ok a8sealed ∧
    a8sealed.manifest.encryption = none ∧
    ∀ fe ∈ a8sealed.manifest.files,
      fe.encryptedSHA256 = "" ∧ hasSuffixEnc fe.path = false := by
  have hseal : Seal P0 a8 opts0 5 [] (fun _ => []) = .ok a8sealed := by
    have h1 : (Seal P0 a8 opts0 5 [] (fun _ => [])).toOption = some a8sealed := by
      decide
    cases hs : Seal P0 a8 opts0 5 [] (fun _ => []) with
    | error e => rw [hs] at h1; cases h1
    | ok av =>
      rw [hs] at h1
      simp [Except.toOption] at h1
      rw [h1]
  have h := (seal_encryption_invariants P0 a8 opts0 5 [] (fun _ => [])
    a8sealed hseal (by decide) (by decide) (by decide)
    (fun d => by simp [P0])).1 rfl
  exact ⟨hseal, h.1, h.2⟩

/-- Primitives for the C9 exhibit: the hash records the bytes themselves, so
the recorded `sha256` fields of the concrete container are honest. -/
def P9 : Prims := { P0 with hash := fun b => b }

/-- A sealed, unencrypted container holding two entries with distinct
archive paths (`files/doc.pdf`, `files/doc_1.pdf` - exactly what Add's
disambiguation produces for two files of the same base name) but the same
`original_name`, with different contents. -/
def feDoc1 : FileEntry :=
  { path := "files/doc.pdf", originalName := "doc.pdf", originalSize := 1,
    sha256 := "01", encryptedSHA256 := "" }

/-- Second colliding entry of the C9 container. -/
def feDoc2 : FileEntry :=
  { path := "files/doc_1.pdf", originalName := "doc.pdf", originalSize := 1,
    sha256 := "02", encryptedSHA256 := "" }

def aDup : Archive :=
  { manifest :=
      { version := 1, state := "sealed", createdAt := 0, sealedAt := some 1,
        expiresAt := none, publicKey := "", encryption := none,
        files := [feDoc1, feDoc2], signature := "" },
    entries := [("files/doc.pdf", [1]), ("files/doc_1.pdf", [2]),
                (".sealed", [115])] }

/-- C9: Extract silently discards data on output-name collisions - on the
concrete container with two entries both named `doc.pdf`, extraction
succeeds and writes both files to the same output path in order, so the
second write overwrites the first and the first file's bytes `[1]` are
nowhere in the resulting output directory. -/
theorem extract_overwrites_on_name_collision :
    (Extract P9 aDup { passphrase := "", ignoreExpiry := false } 0).toOption =
      some [("doc.pdf", [1]), ("doc.pdf", [2])] ∧
    lookupLast [("doc.pdf", [1]), ("doc.pdf", [2])] "doc.pdf" = some [2] ∧
    ∀ name, lookupLast [("doc.pdf", [1]), ("doc.pdf", [2])] name ≠
      some [1] := by
  refine ⟨by decide, by decide, ?_⟩
  intro name
  by_cases h : name = "doc.pdf"
  · subst h
    decide
  · have h2 : "doc.pdf" ≠ name := fun hcon => h hcon.symm
    simp [lookupLast, h2]

theorem contains1_false (k a : String) (h : k ≠ a) :
    (([a] : List String).contains k) = false := by
  simp [List.contains, h]

/-- C4: round-trip.  Files added to a fresh container that is then sealed -
with or without a passphrase, with or without a not-yet-past expiration -
are extracted with the correct passphrase as byte-identical copies under
their original names, in order.  The hypotheses are the AEAD and base64
round-trip contracts of the standard library, the 12-byte nonces produced by
`rand`, and the stated success of the Add and Seal calls. -/
theorem add_seal_extract_roundtrip (P : Prims) (now0 now1 now2 : Int)
    (inputs : List (String × Bytes)) (opts : SealOptions) (salt : Bytes)
    (nonces : Nat → Bytes) (a1 a2 : Archive)
    (hAEAD : ∀ k n p, P.aeadOpen k n (P.aeadSeal k n p) = some p)
    (hNon : ∀ i, (nonces i).length = 12)
    (hB64 : P.b64decode (P.b64encode salt) = some salt)
    (hAdd : Add P (Create now0) inputs = .ok a1)
    (hSeal : Seal P a1 opts now1 salt nonces = .ok a2)
    (hExp : a2.manifest.IsExpired now2 = false) :
    Extract P a2 { passphrase := opts.passphrase, ignoreExpiry := false }
      now2 = .ok (inputs.map (fun inp => (baseName inp.1, inp.2))) := by
  obtain ⟨-, fes, prs, hm1, hents1, hl1, hl2, hF, hndM, hndP⟩ :=
    Add_ok P (Create now0) inputs a1 hAdd
  have hm1files : a1.manifest.files = fes := by rw [hm1]; rfl
  have hm1enc : a1.manifest.encryption = none := by rw [hm1]; rfl
  have hents1p : a1.entries = prs := by
    rw [hents1]
    rfl
  have hndFes : (fes.map FileEntry.path).Nodup := by
    have := hndM (by simp [Create, Manifest.New])
    simpa [Create, Manifest.New] using this
  have haddrel := addrel_lookup P inputs fes prs hF hl1 hl2 hndP
  -- every pending key is files/-prefixed
  have hkeyPref : ∀ q ∈ prs, ∃ r, q.1 = filesDir ++ r := by
    intro q hq
    obtain ⟨n, hn⟩ := List.mem_iff_get.mp hq
    have hlen : (n : Nat) < inputs.length := by
      have := n.isLt
      omega
    have hzlen : (n : Nat) < (fes.zip prs).length := by
      rw [List.length_zip]
      omega
    have hrel := hF.get hlen hzlen
    have hp3 : (n : Nat) < fes.length := by omega
    have hzi : (fes.zip prs).get ⟨(n : Nat), hzlen⟩ =
        (fes.get ⟨(n : Nat), hp3⟩, prs.get ⟨(n : Nat), n.isLt⟩) := by
      simp [List.getElem_zip]
    rw [hzi] at hrel
    obtain ⟨-, -, -, -, ⟨r, hr⟩, hpr⟩ := hrel
    simp only [] at hpr
    rw [show prs.get n = q from hn] at hpr
    rw [hpr]
    exact ⟨r, hr⟩
  have hexist : readZipEntries a1 [manifestPath] = prs := by
    unfold readZipEntries
    rw [hents1p]
    apply filter_excl_eq_self
    intro q hq
    obtain ⟨r, hr⟩ := hkeyPref q hq
    rw [hr]
    exact contains1_false _ _ (filesDir_append_ne_manifest r)
  have hsealedState : ∀ (hst : a2.manifest.state = "sealed"),
      a2.manifest.IsSealed = true := by
    intro hst
    simp [Manifest.IsSealed, hst]
  by_cases hp : opts.passphrase = ""
  · -- unencrypted round trip
    obtain ⟨hst, -, hfls, henc2, -, hents2⟩ :=
      Seal_ok_plain P a1 opts now1 salt nonces a2 hSeal hp
    rw [hexist] at hents2
    have hentExt : readZipEntries a2 [manifestPath, sealedMarker, pubKeyPath] =
        prs := by
      unfold readZipEntries
      rw [hents2]
      rw [List.filter_append, List.filter_append]
      have hprs : prs.filter
          (fun p => ¬ [manifestPath, sealedMarker, pubKeyPath].contains p.1) =
          prs := by
        apply filter_excl_eq_self
        intro q hq
        obtain ⟨r, hr⟩ := hkeyPref q hq
        rw [hr]
        exact contains3_false _ _ _ _ (filesDir_append_ne_manifest r)
          (filesDir_append_ne_marker r) (filesDir_append_ne_pubkey r)
      have hmark : (([(sealedMarker, strBytes "sealed")] :
          List (String × Bytes)).filter
          (fun p => ¬ [manifestPath, sealedMarker, pubKeyPath].contains p.1)) =
          [] := by
        simp [List.filter, manifestPath, sealedMarker, pubKeyPath]
      rw [hprs, hmark, List.append_nil]
      cases hemb : opts.embedPubKey with
      | false => simp
      | true =>
        simp only [if_true]
        have hpub : (([(pubKeyPath, P.pemPub (P.pubOf opts.privateKey))] :
            List (String × Bytes)).filter
            (fun p => ¬ [manifestPath, sealedMarker, pubKeyPath].contains p.1)) =
            [] := by
          simp [List.filter, manifestPath, sealedMarker, pubKeyPath]
        rw [hpub, List.append_nil]
    unfold Extract
    simp only []
    rw [hsealedState hst]
    simp only [Bool.not_true, Bool.false_eq_true, if_false]
    rw [hExp]
    simp only [Bool.false_and, Bool.false_eq_true, if_false]
    have hdk : extractDecKey P a2.manifest opts.passphrase = .ok none := by
      unfold extractDecKey
      rw [henc2, hm1enc]
    rw [hdk]
    simp only []
    rw [hentExt, hfls, hm1files]
    apply extractLoop_ok
    apply haddrel.imp
    intro inp fe hrel
    obtain ⟨hn, -, hsha, -, -, hlook⟩ := hrel
    exact ⟨hn, hsha, inp.2, hlook, rfl⟩
  · -- encrypted round trip
    obtain ⟨fes2, procs, henc, hst, -, hfls, hencm, -, hents2⟩ :=
      Seal_ok_enc P a1 opts now1 salt nonces a2 hSeal hp
    rw [hexist, hm1files] at henc
    obtain ⟨hel1, hel2, hkeys, -, hEF⟩ := encryptFiles_ok P _ nonces _ _ 0
      fes2 procs henc
    have hndProcs : (procs.map Prod.fst).Nodup := by
      rw [hkeys]
      have h1 : fes.map (fun fe => fe.path ++ ".enc") =
          (fes.map FileEntry.path).map (fun s => s ++ ".enc") := by
        rw [List.map_map]
        rfl
      rw [h1]
      exact hndFes.map append_enc_injective
    have hencrel := encrel_lookup P _ nonces _ fes fes2 procs hEF hel1 hel2
      hndProcs
    have hkeyEnc : ∀ q ∈ procs, ∃ s, q.1 = s ++ ".enc" := by
      intro q hq
      have h1 : q.1 ∈ procs.map Prod.fst := List.mem_map.mpr ⟨q, hq, rfl⟩
      rw [hkeys] at h1
      obtain ⟨fe, _, hfe⟩ := List.mem_map.mp h1
      exact ⟨fe.path, hfe.symm⟩
    have hentExt : readZipEntries a2 [manifestPath, sealedMarker, pubKeyPath] =
        procs := by
      unfold readZipEntries
      rw [hents2]
      rw [List.filter_append, List.filter_append]
      have hprocs : procs.filter
          (fun p => ¬ [manifestPath, sealedMarker, pubKeyPath].contains p.1) =
          procs := by
        apply filter_excl_eq_self
        intro q hq
        obtain ⟨s, hs⟩ := hkeyEnc q hq
        rw [hs]
        exact contains3_false _ _ _ _ (enc_path_ne_manifest s)
          (enc_path_ne_marker s) (enc_path_ne_pubkey s)
      have hmark : (([(sealedMarker, strBytes "sealed")] :
          List (String × Bytes)).filter
          (fun p => ¬ [manifestPath, sealedMarker, pubKeyPath].contains p.1)) =
          [] := by
        simp [List.filter, manifestPath, sealedMarker, pubKeyPath]
      rw [hprocs, hmark, List.append_nil]
      cases hemb : opts.embedPubKey with
      | false => simp
      | true =>
        simp only [if_true]
        have hpub : (([(pubKeyPath, P.pemPub (P.pubOf opts.privateKey))] :
            List (String × Bytes)).filter
            (fun p => ¬ [manifestPath, sealedMarker, pubKeyPath].contains p.1)) =
            [] := by
          simp [List.filter, manifestPath, sealedMarker, pubKeyPath]
        rw [hpub, List.append_nil]
    unfold Extract
    simp only []
    rw [hsealedState hst]
    simp only [Bool.not_true, Bool.false_eq_true, if_false]
    rw [hExp]
    simp only [Bool.false_and, Bool.false_eq_true, if_false]
    have hdk : extractDecKey P a2.manifest opts.passphrase =
        .ok (some (DeriveKey P opts.passphrase salt)) := by
      unfold extractDecKey
      rw [hencm]
      simp only []
      rw [if_neg hp]
      rw [hB64]
    rw [hdk]
    simp only []
    rw [hentExt, hfls]
    apply extractLoop_ok
    refine forall2_trans ?_ haddrel hencrel
    intro inp fe fe2 h1 h2
    obtain ⟨hn1, -, hsha1, -, -, hlook1⟩ := h1
    obtain ⟨hn2, -, hsha2, -, pt, j, hlookPt, hlookCt, -⟩ := h2
    have hpt : pt = inp.2 := by
      rw [hlook1] at hlookPt
      injection hlookPt with h
      exact h.symm
    subst hpt
    refine ⟨by rw [hn2, hn1], by rw [hsha2, hsha1], _, hlookCt, ?_⟩
    simp only []
    exact DecryptC_EncryptC P _ _ _ (hAEAD _ _ _) (hNon j)

/-- Concrete seal options for the C4 witness: unencrypted, no embedded key. -/
def opts4 : SealOptions :=
  { privateKey := [], embedPubKey := false, passphrase := "", expiresAt := none }

/-- The single file entry produced by adding `("x", [1])` under `P0`. -/
def fe4 : FileEntry :=
  { path := "files/x", originalName := "x", originalSize := 1,
    sha256 := "0000000000000000000000000000000000000000000000000000000000000000",
    encryptedSHA256 := "" }

/-- The archive produced by `Add P0 (Create 0) [("x", [1])]`. -/
def a1C4 : Archive :=
  { manifest :=
      { version := 1, state := "open", createdAt := 0, sealedAt := none,
        expiresAt := none, publicKey := "", encryption := none,
        files := [fe4], signature := "" },
    entries := [("files/x", [1])] }

/-- The archive produced by sealing `a1C4` with `opts4` at time 1. -/
def a2C4 : Archive :=
  { manifest :=
      { version := 1, state := "sealed", createdAt := 0, sealedAt := some 1,
        expiresAt := none, publicKey := "", encryption := none,
        files := [fe4], signature := "b64" },
    entries := [("files/x", [1]), (".sealed", [115, 101, 97, 108, 101, 100])] }

/-- C4 witness: on the concrete primitives `P0`, adding the file `x` with
body `[1]`, sealing, and extracting yields exactly `[("x", [1])]`. -/
theorem add_seal_extract_roundtrip_witness :
    Extract P0 a2C4 { passphrase := "", ignoreExpiry := false } 2 =
      .ok ([("x", [1])].map (fun inp => (baseName inp.1, inp.2))) := by
  exact add_seal_extract_roundtrip P0 0 1 2 [("x", [1])] opts4 []
    (fun _ => List.replicate 12 0) a1C4 a2C4
    (fun k n p => rfl) (fun i => rfl) rfl rfl rfl rfl

end IMF
